import Mathlib

/-
Verification of the simulated exchange and account ledger of the `ff`
backtesting harness (src/exchange/exchange.ts, src/core/wallet.ts,
src/core/price.ts, src/types/main.ts).

The TypeScript code is shallowly embedded: JavaScript numbers are modelled
as exact rationals (ℚ), JS `Map`s as association lists mutated in place
(insertion order preserved, first occurrence replaced), and thrown
exceptions as `Except`-valued results paired with the state at throw time
(so a partially mutated state is observable exactly where the original
code would leave one behind).
-/

namespace FF

/-- The instrument symbols of the `Symbol` enum in src/types/main.ts. -/
inductive Symbol where
  | BTC_USDT
  | ETH_USDT
  | SOLUSDT
  | XRPUSDT
  | ADAUSDT
  deriving DecidableEq

/-- Lookup of the first binding of a key in an association list,
modelling `Map.prototype.get`. -/
def lookupA {β : Type} (k : Symbol) : List (Symbol × β) → Option β
  | [] => none
  | (k', v) :: rest => if k' = k then some v else lookupA k rest

/-- Replace the first binding of a key, or append a new binding,
modelling `Map.prototype.set`. -/
def setA {β : Type} (k : Symbol) (v : β) : List (Symbol × β) → List (Symbol × β)
  | [] => [(k, v)]
  | (k', v') :: rest => if k' = k then (k, v) :: rest else (k', v') :: setA k v rest

/-- Remove the first binding of a key, modelling `Map.prototype.delete`. -/
def removeA {β : Type} (k : Symbol) : List (Symbol × β) → List (Symbol × β)
  | [] => []
  | (k', v') :: rest => if k' = k then rest else (k', v') :: removeA k rest

/-- The error kinds thrown by wallet.ts, price.ts and exchange.ts,
one constructor per distinct `throw new Error(...)` message class. -/
inductive Err where
  /-- 价格和数量必须大于 0 and friends: non-positive amount/price/leverage. -/
  | invalidInput
  /-- Price not found (price.ts getPrice). -/
  | priceNotFound
  /-- 法币余额不足 : insufficient fiat (exchange prechecks and
  Wallet.subtractFiatBalance). -/
  | insufficientFiat
  /-- 余额不足 : insufficient instrument balance (exchange prechecks and
  Wallet.subtractBalance). -/
  | insufficientBalance
  /-- 保证金不足 : insufficient margin (openShort precheck). -/
  | insufficientMargin
  /-- 余额不能为负数 : Wallet.setBalance given a negative amount. -/
  | negativeBalance
  /-- 法币余额不能为负数 : Wallet.setFiatBalance given a negative amount. -/
  | negativeFiat
  /-- 订单不存在 : cancelOrder on an unknown order id. -/
  | orderNotFound
  /-- 空单不存在 : closeShort with no open position. -/
  | shortNotFound
  /-- 触发强平 : the forced-liquidation signal of checkLiquidation. -/
  | liquidation
  /-- 手续费率不能为负数 : setFeeRates given a negative rate. -/
  | negativeRate
  deriving DecidableEq

/-- The Wallet class of src/core/wallet.ts: free fiat plus free
per-symbol balances. -/
structure Wallet where
  fiat : ℚ
  balances : List (Symbol × ℚ)
  deriving DecidableEq

namespace Wallet

/-- `getBalance`: `this.balances.get(symbol) || 0`. -/
def getBalance (w : Wallet) (s : Symbol) : ℚ :=
  (lookupA s w.balances).getD 0

/-- `setBalance`: rejects negative amounts, then writes the map. -/
def setBalance (w : Wallet) (s : Symbol) (a : ℚ) : Except Err Wallet :=
  if a < 0 then .error .negativeBalance
  else .ok { w with balances := setA s a w.balances }

/-- `addBalance`. -/
def addBalance (w : Wallet) (s : Symbol) (a : ℚ) : Except Err Wallet :=
  w.setBalance s (w.getBalance s + a)

/-- `subtractBalance`: rejects when the current balance is insufficient. -/
def subtractBalance (w : Wallet) (s : Symbol) (a : ℚ) : Except Err Wallet :=
  if w.getBalance s < a then .error .insufficientBalance
  else w.setBalance s (w.getBalance s - a)

/-- `setFiatBalance`: rejects negative amounts. -/
def setFiatBalance (w : Wallet) (a : ℚ) : Except Err Wallet :=
  if a < 0 then .error .negativeFiat
  else .ok { w with fiat := a }

/-- `addFiatBalance`: delegates to `setFiatBalance`, so a negative net
credit that would push fiat below zero throws. -/
def addFiatBalance (w : Wallet) (a : ℚ) : Except Err Wallet :=
  w.setFiatBalance (w.fiat + a)

/-- `subtractFiatBalance`: rejects when fiat is insufficient. -/
def subtractFiatBalance (w : Wallet) (a : ℚ) : Except Err Wallet :=
  if w.fiat < a then .error .insufficientFiat
  else w.setFiatBalance (w.fiat - a)

/-- `clearBalance`. -/
def clearBalance (w : Wallet) (s : Symbol) : Wallet :=
  { w with balances := removeA s w.balances }

/-- `clearAllBalances`. -/
def clearAllBalances (w : Wallet) : Wallet :=
  { w with balances := [] }

end Wallet

/-- The PendingOrder record of src/types/main.ts as actually populated by
placeBuyOrder/placeSellOrder (the optional `totalCostWithFee` field is
never written by the code, so it is not part of the embedded record).
Order ids `order_N` are embedded as their counter value `N`. -/
structure PendingOrder where
  id : Nat
  symbol : Symbol
  isBuy : Bool
  price : ℚ
  amount : ℚ
  timestamp : Nat
  deriving DecidableEq

/-- The ShortPosition record of src/types/main.ts. -/
structure ShortPosition where
  symbol : Symbol
  amount : ℚ
  entryPrice : ℚ
  leverage : ℚ
  margin : ℚ
  timestamp : Nat
  deriving DecidableEq

/-- The FeeRates configuration of exchange.ts. -/
structure FeeRates where
  spotBuy : ℚ
  spotSell : ℚ
  limitBuy : ℚ
  limitSell : ℚ
  shortOpen : ℚ
  shortClose : ℚ
  deriving DecidableEq

/-- The default fee rates of the Exchange constructor. -/
def defaultFeeRates : FeeRates :=
  ⟨1/1000, 1/1000, 2/1000, 2/1000, 1/1000, 1/1000⟩

/-- A `Partial<FeeRates>` value: absent fields leave the rate unchanged. -/
structure FeeRatesPatch where
  spotBuy : Option ℚ := none
  spotSell : Option ℚ := none
  limitBuy : Option ℚ := none
  limitSell : Option ℚ := none
  shortOpen : Option ℚ := none
  shortClose : Option ℚ := none
  deriving DecidableEq

/-- Spread of a partial fee-rate object over a full one
(`{ ...this.feeRates, ...feeRates }`). -/
def applyPatch (fr : FeeRates) (p : FeeRatesPatch) : FeeRates :=
  ⟨p.spotBuy.getD fr.spotBuy, p.spotSell.getD fr.spotSell,
   p.limitBuy.getD fr.limitBuy, p.limitSell.getD fr.limitSell,
   p.shortOpen.getD fr.shortOpen, p.shortClose.getD fr.shortClose⟩

/-- Whether a partial fee-rate object carries a negative rate
(`Object.entries(feeRates).forEach` validation in setFeeRates). -/
def FeeRatesPatch.hasNegative (p : FeeRatesPatch) : Bool :=
  (p.spotBuy.elim false (· < 0)) || (p.spotSell.elim false (· < 0)) ||
  (p.limitBuy.elim false (· < 0)) || (p.limitSell.elim false (· < 0)) ||
  (p.shortOpen.elim false (· < 0)) || (p.shortClose.elim false (· < 0))

/-- The combined mutable state: the Exchange instance fields together with
the module-level price registry of src/core/price.ts that the Exchange
reads through `getPrice`. -/
structure Exchange where
  wallet : Wallet
  feeRates : FeeRates
  pendingOrders : List PendingOrder
  shortPositions : List (Symbol × ShortPosition)
  orderIdCounter : Nat
  prices : List (Symbol × ℚ)
  deriving DecidableEq

/-- 维持保证金率 5%. -/
def maintenanceMarginRate : ℚ := 1/20

/-- `getPrice` of price.ts over a price table: fails when the symbol is
absent, and also when the stored price is exactly 0, because the source
tests the looked-up value with a JS falsy check. -/
def getPriceP (prices : List (Symbol × ℚ)) (s : Symbol) : Except Err ℚ :=
  match lookupA s prices with
  | none => .error .priceNotFound
  | some p => if p = 0 then .error .priceNotFound else .ok p

namespace Exchange

/-- `getPrice` as read by the Exchange. -/
def getPriceE (st : Exchange) (s : Symbol) : Except Err ℚ :=
  getPriceP st.prices s

/-- `setPrice` of price.ts. -/
def setPrice (st : Exchange) (s : Symbol) (p : ℚ) : Exchange :=
  { st with prices := setA s p st.prices }

/-- A fresh Exchange over a fresh Wallet (the constructors of both
classes), with an empty price registry. -/
def initSt (fiat : ℚ) (p : FeeRatesPatch) : Exchange :=
  { wallet := ⟨fiat, []⟩
    feeRates := applyPatch defaultFeeRates p
    pendingOrders := []
    shortPositions := []
    orderIdCounter := 0
    prices := [] }

/-- `spotBuy(symbol, amount)`. -/
def spotBuy (st : Exchange) (symbol : Symbol) (amount : ℚ) :
    Except Err Unit × Exchange :=
  if amount ≤ 0 then (.error .invalidInput, st)
  else match st.getPriceE symbol with
    | .error e => (.error e, st)
    | .ok price =>
      let totalCost := price * amount
      let fee := totalCost * st.feeRates.spotBuy
      let totalCostWithFee := totalCost + fee
      if st.wallet.fiat < totalCostWithFee then (.error .insufficientFiat, st)
      else match st.wallet.subtractFiatBalance totalCostWithFee with
        | .error e => (.error e, st)
        | .ok w1 =>
          match w1.addBalance symbol amount with
          | .error e => (.error e, { st with wallet := w1 })
          | .ok w2 => (.ok (), { st with wallet := w2 })

/-- `spotSell(symbol, amount)`. -/
def spotSell (st : Exchange) (symbol : Symbol) (amount : ℚ) :
    Except Err Unit × Exchange :=
  if amount ≤ 0 then (.error .invalidInput, st)
  else if st.wallet.getBalance symbol < amount then (.error .insufficientBalance, st)
  else match st.getPriceE symbol with
    | .error e => (.error e, st)
    | .ok price =>
      let totalRevenue := price * amount
      let fee := totalRevenue * st.feeRates.spotSell
      let totalRevenueAfterFee := totalRevenue - fee
      match st.wallet.subtractBalance symbol amount with
      | .error e => (.error e, st)
      | .ok w1 =>
        match w1.addFiatBalance totalRevenueAfterFee with
        | .error e => (.error e, { st with wallet := w1 })
        | .ok w2 => (.ok (), { st with wallet := w2 })

/-- `placeBuyOrder(symbol, price, amount)`: freezes notional + limit-buy
fee, then records the order; returns the generated order id. -/
def placeBuyOrder (st : Exchange) (symbol : Symbol) (price amount : ℚ)
    (now : Nat) : Except Err Nat × Exchange :=
  if amount ≤ 0 ∨ price ≤ 0 then (.error .invalidInput, st)
  else
    let totalCost := price * amount
    let fee := totalCost * st.feeRates.limitBuy
    let totalCostWithFee := totalCost + fee
    if st.wallet.fiat < totalCostWithFee then (.error .insufficientFiat, st)
    else match st.wallet.subtractFiatBalance totalCostWithFee with
      | .error e => (.error e, st)
      | .ok w1 =>
        let orderId := st.orderIdCounter + 1
        (.ok orderId,
          { st with wallet := w1, orderIdCounter := orderId,
                    pendingOrders := st.pendingOrders ++
                      [⟨orderId, symbol, true, price, amount, now⟩] })

/-- `placeSellOrder(symbol, price, amount)`: freezes the instrument
quantity, then records the order; returns the generated order id. -/
def placeSellOrder (st : Exchange) (symbol : Symbol) (price amount : ℚ)
    (now : Nat) : Except Err Nat × Exchange :=
  if amount ≤ 0 ∨ price ≤ 0 then (.error .invalidInput, st)
  else if st.wallet.getBalance symbol < amount then (.error .insufficientBalance, st)
  else match st.wallet.subtractBalance symbol amount with
    | .error e => (.error e, st)
    | .ok w1 =>
      let orderId := st.orderIdCounter + 1
      (.ok orderId,
        { st with wallet := w1, orderIdCounter := orderId,
                  pendingOrders := st.pendingOrders ++
                    [⟨orderId, symbol, false, price, amount, now⟩] })

/-- First pending order with the given id (`this.pendingOrders.get`). -/
def findOrder (orderId : Nat) : List PendingOrder → Option PendingOrder
  | [] => none
  | o :: rest => if o.id = orderId then some o else findOrder orderId rest

/-- Remove the pending order with the given id
(`this.pendingOrders.delete`). -/
def removeOrder (orderId : Nat) : List PendingOrder → List PendingOrder
  | [] => []
  | o :: rest => if o.id = orderId then rest else o :: removeOrder orderId rest

/-- `cancelOrder(orderId)`: refunds a buy order's notional plus a fee
recomputed at the current limit-buy rate, or a sell order's quantity,
then removes the order. -/
def cancelOrder (st : Exchange) (orderId : Nat) : Except Err Unit × Exchange :=
  match findOrder orderId st.pendingOrders with
  | none => (.error .orderNotFound, st)
  | some order =>
    if order.isBuy then
      let totalCost := order.price * order.amount
      let fee := totalCost * st.feeRates.limitBuy
      match st.wallet.addFiatBalance (totalCost + fee) with
      | .error e => (.error e, st)
      | .ok w => (.ok (),
          { st with wallet := w,
                    pendingOrders := removeOrder orderId st.pendingOrders })
    else
      match st.wallet.addBalance order.symbol order.amount with
      | .error e => (.error e, st)
      | .ok w => (.ok (),
          { st with wallet := w,
                    pendingOrders := removeOrder orderId st.pendingOrders })

/-- `openShort(symbol, amount, leverage)`: freezes margin plus open fee;
merges into an existing position (weighted-average entry, additive
margin, original leverage and timestamp kept) or creates a new one. -/
def openShort (st : Exchange) (symbol : Symbol) (amount leverage : ℚ)
    (now : Nat) : Except Err Unit × Exchange :=
  if amount ≤ 0 then (.error .invalidInput, st)
  else if leverage < 1 then (.error .invalidInput, st)
  else match st.getPriceE symbol with
    | .error e => (.error e, st)
    | .ok price =>
      let positionValue := price * amount
      let requiredMargin := positionValue / leverage
      let fee := positionValue * st.feeRates.shortOpen
      let totalRequired := requiredMargin + fee
      if st.wallet.fiat < totalRequired then (.error .insufficientMargin, st)
      else match st.wallet.subtractFiatBalance totalRequired with
        | .error e => (.error e, st)
        | .ok w1 =>
          match lookupA symbol st.shortPositions with
          | some p =>
            let totalAmount := p.amount + amount
            let totalValue := p.entryPrice * p.amount + price * amount
            (.ok (),
              { st with
                  wallet := w1
                  shortPositions := setA symbol
                    { p with
                        amount := totalAmount
                        entryPrice := totalValue / totalAmount
                        margin := p.margin + requiredMargin }
                    st.shortPositions })
          | none =>
            (.ok (),
              { st with
                  wallet := w1
                  shortPositions := setA symbol
                    ⟨symbol, amount, price, leverage, requiredMargin, now⟩
                    st.shortPositions })

/-- `closeShort(symbol)`: credits margin + realized P&L − close fee back
to fiat, then deletes the position; if the credit would push fiat below
zero the wallet throws first and the position survives. -/
def closeShort (st : Exchange) (symbol : Symbol) : Except Err Unit × Exchange :=
  match lookupA symbol st.shortPositions with
  | none => (.error .shortNotFound, st)
  | some position =>
    match st.getPriceE symbol with
    | .error e => (.error e, st)
    | .ok currentPrice =>
      let positionValue := currentPrice * position.amount
      let fee := positionValue * st.feeRates.shortClose
      let pnl := (position.entryPrice - currentPrice) * position.amount
      match st.wallet.addFiatBalance (position.margin + pnl - fee) with
      | .error e => (.error e, st)
      | .ok w => (.ok (),
          { st with wallet := w,
                    shortPositions := removeA symbol st.shortPositions })

/-- `getShortPosition(symbol)`. -/
def getShortPosition (st : Exchange) (symbol : Symbol) : Option ShortPosition :=
  lookupA symbol st.shortPositions

/-- `getUnrealizedPnl(symbol)`: 0 with no position, otherwise
(entryPrice − currentPrice) × amount at the oracle price. -/
def getUnrealizedPnl (st : Exchange) (symbol : Symbol) : Except Err ℚ :=
  match lookupA symbol st.shortPositions with
  | none => .ok 0
  | some position =>
    match st.getPriceE symbol with
    | .error e => .error e
    | .ok currentPrice => .ok ((position.entryPrice - currentPrice) * position.amount)

/-- `checkLiquidation(symbol)`: when equity / positionValue at the oracle
price drops below the maintenance margin rate, force-closes via
`closeShort` and then raises the liquidation signal. -/
def checkLiquidation (st : Exchange) (symbol : Symbol) : Except Err Unit × Exchange :=
  match lookupA symbol st.shortPositions with
  | none => (.ok (), st)
  | some position =>
    match st.getPriceE symbol with
    | .error e => (.error e, st)
    | .ok currentPrice =>
      let unrealizedPnl := (position.entryPrice - currentPrice) * position.amount
      let currentEquity := position.margin + unrealizedPnl
      let positionValue := currentPrice * position.amount
      if currentEquity / positionValue < maintenanceMarginRate then
        match closeShort st symbol with
        | (.error e, st1) => (.error e, st1)
        | (.ok _, st1) => (.error .liquidation, st1)
      else (.ok (), st)

/-- Fill condition of `onPriceUpdate`: buys fill at newPrice ≤ limit,
sells at newPrice ≥ limit. -/
def shouldExecute (order : PendingOrder) (newPrice : ℚ) : Bool :=
  if order.isBuy then decide (newPrice ≤ order.price)
  else decide (order.price ≤ newPrice)

/-- The order-matching loop body of `onPriceUpdate`: walks the pending
orders in insertion order, settles each fillable order on the updated
symbol (buy: credit the instrument; sell: credit limit-price proceeds
net of the limit-sell fee) and drops it; a wallet throw aborts the walk
leaving the current and later orders pending. -/
def processOrders (fr : FeeRates) (symbol : Symbol) (newPrice : ℚ) :
    List PendingOrder → Wallet → Except Err Unit × Wallet × List PendingOrder
  | [], w => (.ok (), w, [])
  | o :: rest, w =>
    if o.symbol = symbol then
      if shouldExecute o newPrice then
        if o.isBuy then
          match w.addBalance symbol o.amount with
          | .error e => (.error e, w, o :: rest)
          | .ok w1 => processOrders fr symbol newPrice rest w1
        else
          let totalRevenue := o.price * o.amount
          let fee := totalRevenue * fr.limitSell
          match w.addFiatBalance (totalRevenue - fee) with
          | .error e => (.error e, w, o :: rest)
          | .ok w1 => processOrders fr symbol newPrice rest w1
      else
        let (r, w1, kept) := processOrders fr symbol newPrice rest w
        (r, w1, o :: kept)
    else
      let (r, w1, kept) := processOrders fr symbol newPrice rest w
      (r, w1, o :: kept)

/-- `onPriceUpdate(symbol, newPrice)`: first the liquidation check (at the
oracle price), then the order-matching loop (against newPrice). -/
def onPriceUpdate (st : Exchange) (symbol : Symbol) (newPrice : ℚ) :
    Except Err Unit × Exchange :=
  match st.checkLiquidation symbol with
  | (.error e, st1) => (.error e, st1)
  | (.ok _, st1) =>
    match processOrders st1.feeRates symbol newPrice st1.pendingOrders st1.wallet with
    | (r, w, kept) => (r, { st1 with wallet := w, pendingOrders := kept })

/-- `setFeeRates(partial)`: rejects the whole batch when any provided
rate is negative. -/
def setFeeRates (st : Exchange) (p : FeeRatesPatch) : Except Err Unit × Exchange :=
  if p.hasNegative then (.error .negativeRate, st)
  else (.ok (), { st with feeRates := applyPatch st.feeRates p })

/-- Contribution of one held balance to the spot part of
`getTotalAssetValue`: zero when the price lookup fails. -/
def spotContrib (prices : List (Symbol × ℚ)) (e : Symbol × ℚ) : ℚ :=
  match getPriceP prices e.1 with
  | .ok p => p * e.2
  | .error _ => 0

/-- The spot-value reduce of `getTotalAssetValue`. -/
def spotValue (prices : List (Symbol × ℚ)) (bal : List (Symbol × ℚ)) : ℚ :=
  bal.foldl (fun t e => t + spotContrib prices e) 0

/-- The short-value reduce of `getTotalAssetValue`: margin + unrealized
P&L per position, propagating a price-lookup failure (this reduce has no
try/catch in the source). -/
def shortValueFold (st : Exchange) : List (Symbol × ShortPosition) → ℚ → Except Err ℚ
  | [], acc => .ok acc
  | (_, position) :: rest, acc =>
    match st.getUnrealizedPnl position.symbol with
    | .error e => .error e
    | .ok pnl => shortValueFold st rest (acc + position.margin + pnl)

/-- `getTotalAssetValue()`: free fiat + priced spot balances + short
positions (margin + unrealized P&L). Pending orders contribute nothing. -/
def getTotalAssetValue (st : Exchange) : Except Err ℚ :=
  match shortValueFold st st.shortPositions 0 with
  | .error e => .error e
  | .ok shortValue =>
    .ok (st.wallet.fiat + spotValue st.prices st.wallet.balances + shortValue)

end Exchange

/-! ### Association-list lemmas -/

theorem lookupA_setA {β : Type} (q k : Symbol) (v : β) (l : List (Symbol × β)) :
    lookupA q (setA k v l) = if k = q then some v else lookupA q l := by
  induction l with
  | nil =>
    by_cases hq : k = q <;> simp [setA, lookupA, hq]
  | cons hd tl ih =>
    obtain ⟨k', v'⟩ := hd
    by_cases hk : k' = k
    · subst hk
      by_cases hq : k' = q <;> simp [setA, lookupA, hq]
    · by_cases hq : k' = q
      · subst hq
        have hkq : ¬ k = k' := fun h => hk h.symm
        simp [setA, lookupA, hk, hkq]
      · simp [setA, lookupA, hk, hq, ih]

theorem lookupA_setA_self {β : Type} (k : Symbol) (v : β) (l : List (Symbol × β)) :
    lookupA k (setA k v l) = some v := by
  simp [lookupA_setA]

theorem mem_setA {β : Type} {e : Symbol × β} {k : Symbol} {v : β}
    {l : List (Symbol × β)} : e ∈ setA k v l → e = (k, v) ∨ e ∈ l := by
  induction l with
  | nil =>
    intro h
    simpa [setA] using h
  | cons hd tl ih =>
    obtain ⟨k', v'⟩ := hd
    intro h
    by_cases hk : k' = k
    · simp only [setA, hk, if_true, eq_self_iff_true, List.mem_cons] at h
      rcases h with h | h
      · exact .inl h
      · exact .inr (List.mem_cons_of_mem _ h)
    · simp only [setA, if_neg hk, List.mem_cons] at h
      rcases h with h | h
      · exact .inr (by simp [h])
      · rcases ih h with h' | h'
        · exact .inl h'
        · exact .inr (List.mem_cons_of_mem _ h')

theorem setA_setA {β : Type} (k : Symbol) (v v' : β) (l : List (Symbol × β)) :
    setA k v (setA k v' l) = setA k v l := by
  induction l with
  | nil => simp [setA]
  | cons hd tl ih =>
    obtain ⟨k', w'⟩ := hd
    by_cases hk : k' = k
    · subst hk
      simp [setA]
    · simp [setA, if_neg hk, ih]

theorem setA_lookup_self {β : Type} {k : Symbol} {v : β} {l : List (Symbol × β)} :
    lookupA k l = some v → setA k v l = l := by
  induction l with
  | nil =>
    intro h
    simp [lookupA] at h
  | cons hd tl ih =>
    obtain ⟨k', v'⟩ := hd
    intro h
    by_cases hk : k' = k
    · simp only [lookupA, hk, if_true, eq_self_iff_true, Option.some.injEq] at h
      subst h
      simp [setA, hk]
    · simp only [lookupA, if_neg hk] at h
      simp [setA, if_neg hk, ih h]

theorem lookupA_eq_none_of_not_mem {β : Type} {k : Symbol} {l : List (Symbol × β)}
    (h : k ∉ l.map Prod.fst) : lookupA k l = none := by
  induction l with
  | nil => rfl
  | cons hd tl ih =>
    obtain ⟨k', v'⟩ := hd
    simp only [List.map_cons, List.mem_cons, not_or] at h
    have hk : ¬ k' = k := fun he => h.1 he.symm
    simp [lookupA, hk, ih h.2]

theorem lookupA_removeA_self {β : Type} {k : Symbol} {l : List (Symbol × β)} :
    (l.map Prod.fst).Nodup → lookupA k (removeA k l) = none := by
  induction l with
  | nil =>
    intro _
    rfl
  | cons hd tl ih =>
    obtain ⟨k', v'⟩ := hd
    intro h
    simp only [List.map_cons, List.nodup_cons] at h
    by_cases hk : k' = k
    · subst hk
      simp only [removeA, if_pos rfl]
      exact lookupA_eq_none_of_not_mem h.1
    · simp only [removeA, if_neg hk, lookupA, if_neg hk]
      exact ih h.2

/-! ### Wallet lemmas -/

namespace Wallet

theorem setBalance_ok (w : Wallet) (s : Symbol) {a : ℚ} (h : ¬ a < 0) :
    w.setBalance s a = .ok { w with balances := setA s a w.balances } := by
  simp [setBalance, h]

theorem subtractBalance_ok (w : Wallet) (s : Symbol) {a : ℚ}
    (h : ¬ w.getBalance s < a) :
    w.subtractBalance s a =
      .ok { w with balances := setA s (w.getBalance s - a) w.balances } := by
  have h' : ¬ w.getBalance s - a < 0 := by
    intro hc
    exact h (by linarith)
  simp [subtractBalance, h, setBalance_ok _ _ h']

theorem addBalance_ok (w : Wallet) (s : Symbol) {a : ℚ}
    (h : ¬ w.getBalance s + a < 0) :
    w.addBalance s a =
      .ok { w with balances := setA s (w.getBalance s + a) w.balances } := by
  simp [addBalance, setBalance_ok _ _ h]

theorem setFiatBalance_ok (w : Wallet) {a : ℚ} (h : ¬ a < 0) :
    w.setFiatBalance a = .ok { w with fiat := a } := by
  simp [setFiatBalance, h]

theorem addFiatBalance_ok (w : Wallet) {a : ℚ} (h : ¬ w.fiat + a < 0) :
    w.addFiatBalance a = .ok { w with fiat := w.fiat + a } := by
  simp [addFiatBalance, setFiatBalance_ok _ h]

theorem addFiatBalance_err (w : Wallet) {a : ℚ} (h : w.fiat + a < 0) :
    w.addFiatBalance a = .error .negativeFiat := by
  simp [addFiatBalance, setFiatBalance, h]

theorem subtractFiatBalance_ok (w : Wallet) {a : ℚ} (h : ¬ w.fiat < a) :
    w.subtractFiatBalance a = .ok { w with fiat := w.fiat - a } := by
  have h' : ¬ w.fiat - a < 0 := by
    intro hc
    exact h (by linarith)
  simp [subtractFiatBalance, h, setFiatBalance_ok _ h']

theorem setBalance_error {w : Wallet} {s : Symbol} {a : ℚ} {e : Err}
    (h : w.setBalance s a = .error e) : e = .negativeBalance := by
  by_cases hc : a < 0
  · rw [setBalance, if_pos hc] at h
    exact (Except.error.inj h).symm
  · simp [setBalance, hc] at h

theorem addBalance_error {w : Wallet} {s : Symbol} {a : ℚ} {e : Err}
    (h : w.addBalance s a = .error e) : e = .negativeBalance :=
  setBalance_error h

theorem setFiatBalance_error {w : Wallet} {a : ℚ} {e : Err}
    (h : w.setFiatBalance a = .error e) : e = .negativeFiat := by
  by_cases hc : a < 0
  · rw [setFiatBalance, if_pos hc] at h
    exact (Except.error.inj h).symm
  · simp [setFiatBalance, hc] at h

theorem addFiatBalance_error {w : Wallet} {a : ℚ} {e : Err}
    (h : w.addFiatBalance a = .error e) : e = .negativeFiat :=
  setFiatBalance_error h

theorem getBalance_setA (w : Wallet) (s q : Symbol) (v : ℚ) :
    Wallet.getBalance { w with balances := setA s v w.balances } q =
      if s = q then v else w.getBalance q := by
  simp only [getBalance, lookupA_setA]
  by_cases h : s = q <;> simp [h]

end Wallet

/-- Non-negativity invariant of the Ledger: free fiat and every stored
instrument balance are ≥ 0. -/
def WalletInv (w : Wallet) : Prop :=
  0 ≤ w.fiat ∧ ∀ e ∈ w.balances, 0 ≤ e.2

namespace Wallet

theorem inv_setBalance {w w' : Wallet} {s : Symbol} {a : ℚ}
    (hw : WalletInv w) (h : w.setBalance s a = .ok w') : WalletInv w' := by
  by_cases hc : a < 0
  · simp [setBalance, hc] at h
  · rw [setBalance_ok _ _ hc] at h
    cases h
    refine ⟨hw.1, ?_⟩
    intro e he
    rcases mem_setA he with he' | he'
    · subst he'
      exact le_of_not_lt hc
    · exact hw.2 e he'

theorem inv_addBalance {w w' : Wallet} {s : Symbol} {a : ℚ}
    (hw : WalletInv w) (h : w.addBalance s a = .ok w') : WalletInv w' :=
  inv_setBalance hw h

theorem inv_subtractBalance {w w' : Wallet} {s : Symbol} {a : ℚ}
    (hw : WalletInv w) (h : w.subtractBalance s a = .ok w') : WalletInv w' := by
  by_cases hc : w.getBalance s < a
  · simp [subtractBalance, hc] at h
  · simp only [subtractBalance, if_neg hc] at h
    exact inv_setBalance hw h

theorem inv_setFiatBalance {w w' : Wallet} {a : ℚ}
    (hw : WalletInv w) (h : w.setFiatBalance a = .ok w') : WalletInv w' := by
  by_cases hc : a < 0
  · simp [setFiatBalance, hc] at h
  · rw [setFiatBalance_ok _ hc] at h
    cases h
    exact ⟨le_of_not_lt hc, hw.2⟩

theorem inv_addFiatBalance {w w' : Wallet} {a : ℚ}
    (hw : WalletInv w) (h : w.addFiatBalance a = .ok w') : WalletInv w' :=
  inv_setFiatBalance hw h

theorem inv_subtractFiatBalance {w w' : Wallet} {a : ℚ}
    (hw : WalletInv w) (h : w.subtractFiatBalance a = .ok w') : WalletInv w' := by
  by_cases hc : w.fiat < a
  · simp [subtractFiatBalance, hc] at h
  · simp only [subtractFiatBalance, if_neg hc] at h
    exact inv_setFiatBalance hw h

end Wallet

namespace Exchange

/-! ### C1: pending-order value in getTotalAssetValue -/

/-- Modelled from the spec: the pending-order term that §4.3 requires in
`getTotalAssetValue` — "buy orders contribute their frozen total verbatim;
sell orders contribute frozen quantity × current price" (the buy freeze is
notional + limit-buy fee; an unpriced sell contributes zero, like the spot
aggregation). This term is absent from the source's getTotalAssetValue. -/
def specPendingOrderValue (st : Exchange) : ℚ :=
  (st.pendingOrders.map (fun o =>
    if o.isBuy then o.price * o.amount + o.price * o.amount * st.feeRates.limitBuy
    else spotContrib st.prices (o.symbol, o.amount))).sum

/-- Modelled from the spec: `getTotalAssetValue` as §4.3 describes it,
namely the source's value plus the pending-order term. -/
def specTotalAssetValue (st : Exchange) : Except Err ℚ :=
  match getTotalAssetValue st with
  | .error e => .error e
  | .ok v => .ok (v + specPendingOrderValue st)

/-- The state of the repository's own test (place-orders.test.ts,
复杂挂单场景): 10000 fiat, BTC at 40000, spotBuy of 0.1 BTC, then a
resting sell of 0.05 BTC at 42000 and a resting buy of 0.05 BTC at
38000. -/
def stC1 : Exchange :=
  (placeBuyOrder
    (placeSellOrder
      (spotBuy (setPrice (initSt 10000 {}) .BTC_USDT 40000) .BTC_USDT (1/10)).2
      .BTC_USDT 42000 (1/20) 0).2
    .BTC_USDT 38000 (1/20) 0).2

/-- C1: the claim says `getTotalAssetValue()` includes the value of
pending orders (buy orders at their frozen total, sell orders at frozen
quantity × price). The code omits that term: at the state of the
repository's own test it returns 6092.2 where the spec — and the test's
expectation of 9996 — require frozen order value to be counted. -/
theorem c1_getTotalAssetValue_omits_pending_orders :
    getTotalAssetValue stC1 = .ok (30461/5) ∧
    specTotalAssetValue stC1 = .ok 9996 ∧
    ((30461 : ℚ)/5) ≠ 9996 := by
  refine ⟨?_, ?_, by norm_num⟩ <;>
    norm_num [stC1, specTotalAssetValue, specPendingOrderValue,
      getTotalAssetValue, spotBuy, placeBuyOrder, placeSellOrder, setPrice,
      initSt, getPriceE, getPriceP, lookupA, setA, shortValueFold, spotValue,
      spotContrib, Wallet.subtractFiatBalance, Wallet.setFiatBalance,
      Wallet.subtractBalance, Wallet.setBalance, Wallet.addBalance,
      Wallet.getBalance, Wallet.addFiatBalance, defaultFeeRates, applyPatch]

/-! ### C2: the liquidation trigger -/

/-- A reachable state in which the liquidation condition holds but the
forced close cannot settle: 100 fiat, short of 1 BTC opened at 100 with
leverage 10 (margin 10, free fiat 89.9), then the oracle price jumps to
200 so the settlement credit 10 − 100 − 0.2 = −90.2 exceeds free fiat. -/
def stC2 : Exchange :=
  setPrice
    (openShort (setPrice (initSt 100 {}) .BTC_USDT 100) .BTC_USDT 1 10 0).2
    .BTC_USDT 200

/-- Explicit value of `stC2`. -/
theorem stC2_eq :
    stC2 = { wallet := ⟨899/10, []⟩
             feeRates := ⟨1/1000, 1/1000, 1/500, 1/500, 1/1000, 1/1000⟩
             pendingOrders := []
             shortPositions := [(Symbol.BTC_USDT, ⟨Symbol.BTC_USDT, 1, 100, 10, 10, 0⟩)]
             orderIdCounter := 0
             prices := [(Symbol.BTC_USDT, 200)] } := by
  norm_num [stC2, openShort, setPrice, initSt, getPriceE, getPriceP, lookupA,
    setA, Wallet.subtractFiatBalance, Wallet.setFiatBalance, Wallet.getBalance,
    defaultFeeRates, applyPatch]

/-- C2 counterexample: at `stC2` the ratio (M + (P0−Pnew)·q)/(Pnew·q) is
−0.45 < 0.05, yet the check neither closes the position nor raises the
Liquidation signal — the settlement credit throws the wallet's
negative-fiat error first, the state is unchanged and the position is
still there. -/
theorem c2_liquidation_counterexample :
    getShortPosition stC2 .BTC_USDT = some ⟨.BTC_USDT, 1, 100, 10, 10, 0⟩ ∧
    getPriceE stC2 .BTC_USDT = .ok 200 ∧
    ((10 : ℚ) + (100 - 200) * 1) / (200 * 1) < maintenanceMarginRate ∧
    checkLiquidation stC2 .BTC_USDT = (.error .negativeFiat, stC2) ∧
    getShortPosition (checkLiquidation stC2 .BTC_USDT).2 .BTC_USDT ≠ none := by
  refine ⟨?_, ?_, by norm_num [maintenanceMarginRate], ?_, ?_⟩ <;>
    norm_num [stC2, getShortPosition, checkLiquidation, closeShort, openShort,
      getUnrealizedPnl, maintenanceMarginRate, setPrice, initSt, getPriceE,
      getPriceP, lookupA, setA, Wallet.subtractFiatBalance,
      Wallet.setFiatBalance, Wallet.addFiatBalance, Wallet.getBalance,
      defaultFeeRates, applyPatch]
  exact fun h => Option.noConfusion h

/-- C2 (amended): with a position and a priced symbol, the check closes
the position and raises the Liquidation signal iff the equity ratio is
below 5% AND the settlement credit margin + (P0−Pnew)·q − fee keeps fiat
non-negative; the ledger effect of the forced close is applied in the
returned state before the signal. If the ratio is below 5% but the credit
would push fiat negative, a negative-fiat error is raised instead and the
state — position included — is unchanged. -/
theorem c2_amended_liquidation (st : Exchange) (symbol : Symbol)
    (position : ShortPosition) (P : ℚ)
    (hpos : getShortPosition st symbol = some position)
    (hP : getPriceE st symbol = .ok P)
    (hnodup : (st.shortPositions.map Prod.fst).Nodup) :
    (¬ (position.margin + (position.entryPrice - P) * position.amount) /
        (P * position.amount) < maintenanceMarginRate →
      checkLiquidation st symbol = (.ok (), st)) ∧
    ((position.margin + (position.entryPrice - P) * position.amount) /
        (P * position.amount) < maintenanceMarginRate →
      ¬ st.wallet.fiat + (position.margin +
          (position.entryPrice - P) * position.amount -
          P * position.amount * st.feeRates.shortClose) < 0 →
      checkLiquidation st symbol =
        (.error .liquidation,
          { st with
              wallet := { st.wallet with
                fiat := st.wallet.fiat + (position.margin +
                  (position.entryPrice - P) * position.amount -
                  P * position.amount * st.feeRates.shortClose) }
              shortPositions := removeA symbol st.shortPositions }) ∧
      getShortPosition (checkLiquidation st symbol).2 symbol = none) ∧
    ((position.margin + (position.entryPrice - P) * position.amount) /
        (P * position.amount) < maintenanceMarginRate →
      st.wallet.fiat + (position.margin +
          (position.entryPrice - P) * position.amount -
          P * position.amount * st.feeRates.shortClose) < 0 →
      checkLiquidation st symbol = (.error .negativeFiat, st)) := by
  have hpos' : lookupA symbol st.shortPositions = some position := hpos
  refine ⟨?_, ?_, ?_⟩
  · intro hra
    simp only [checkLiquidation, hpos', hP, if_neg hra]
  · intro hra hcr
    have hclose : closeShort st symbol =
        (.ok (),
          { st with
              wallet := { st.wallet with
                fiat := st.wallet.fiat + (position.margin +
                  (position.entryPrice - P) * position.amount -
                  P * position.amount * st.feeRates.shortClose) }
              shortPositions := removeA symbol st.shortPositions }) := by
      simp only [closeShort, hpos', hP, Wallet.addFiatBalance_ok _ hcr]
    have hck : checkLiquidation st symbol =
        (.error .liquidation,
          { st with
              wallet := { st.wallet with
                fiat := st.wallet.fiat + (position.margin +
                  (position.entryPrice - P) * position.amount -
                  P * position.amount * st.feeRates.shortClose) }
              shortPositions := removeA symbol st.shortPositions }) := by
      simp only [checkLiquidation, hpos', hP, if_pos hra, hclose]
    refine ⟨hck, ?_⟩
    rw [hck]
    exact lookupA_removeA_self hnodup
  · intro hra hcr
    have hclose : closeShort st symbol = (.error .negativeFiat, st) := by
      simp only [closeShort, hpos', hP, Wallet.addFiatBalance_err _ hcr]
    simp only [checkLiquidation, hpos', hP, if_pos hra, hclose]

/-- A reachable state where the liquidation fires cleanly: 10000 fiat,
short of 1 BTC at 100 with leverage 1 (margin 100), oracle price 200. -/
def stC2W : Exchange :=
  setPrice
    (openShort (setPrice (initSt 10000 {}) .BTC_USDT 100) .BTC_USDT 1 1 0).2
    .BTC_USDT 200

/-- Witness for the amended C2: at `stC2W` the position ⟨1 BTC, entry 100,
margin 100⟩ at price 200 satisfies the trigger, the settlement credit is
affordable, and the check returns the Liquidation signal with the
settled, position-free state. -/
theorem c2_amended_liquidation_witness :
    checkLiquidation stC2W .BTC_USDT =
      (.error .liquidation,
        { stC2W with
            wallet := { stC2W.wallet with
              fiat := stC2W.wallet.fiat + ((100 : ℚ) + ((100 : ℚ) - 200) * 1 -
                (200 : ℚ) * 1 * stC2W.feeRates.shortClose) }
            shortPositions := removeA .BTC_USDT stC2W.shortPositions }) ∧
    getShortPosition (checkLiquidation stC2W .BTC_USDT).2 .BTC_USDT = none := by
  have h := (c2_amended_liquidation stC2W .BTC_USDT ⟨.BTC_USDT, 1, 100, 1, 100, 0⟩ 200
    (by norm_num [stC2W, getShortPosition, openShort, setPrice, initSt,
      getPriceE, getPriceP, lookupA, setA, Wallet.subtractFiatBalance,
      Wallet.setFiatBalance, Wallet.getBalance, defaultFeeRates, applyPatch])
    (by norm_num [stC2W, openShort, setPrice, initSt, getPriceE, getPriceP,
      lookupA, setA, Wallet.subtractFiatBalance, Wallet.setFiatBalance,
      Wallet.getBalance, defaultFeeRates, applyPatch])
    (by norm_num [stC2W, openShort, setPrice, initSt, getPriceE, getPriceP,
      lookupA, setA, Wallet.subtractFiatBalance, Wallet.setFiatBalance,
      Wallet.getBalance, defaultFeeRates, applyPatch])).2.1
    (by norm_num [maintenanceMarginRate])
    (by norm_num [stC2W, openShort, setPrice, initSt, getPriceE, getPriceP,
      lookupA, setA, Wallet.subtractFiatBalance, Wallet.setFiatBalance,
      Wallet.getBalance, defaultFeeRates, applyPatch])
  exact h

/-! ### C9: closeShort settlement failure -/

/-- C9: when the settlement amount margin + (entryPrice − price)·quantity
− closeFee is negative and its magnitude exceeds free fiat, closeShort
fails with the wallet's negative-fiat error (not the missing-position
error) and changes nothing — so a liquidation triggered in this
situation does not remove the position either. -/
theorem c9_closeShort_settlement_failure (st : Exchange) (symbol : Symbol)
    (position : ShortPosition) (P : ℚ)
    (hpos : getShortPosition st symbol = some position)
    (hP : getPriceE st symbol = .ok P)
    (hneg : position.margin + (position.entryPrice - P) * position.amount -
      P * position.amount * st.feeRates.shortClose < 0)
    (hexceed : st.wallet.fiat <
      -(position.margin + (position.entryPrice - P) * position.amount -
        P * position.amount * st.feeRates.shortClose)) :
    closeShort st symbol = (.error .negativeFiat, st) ∧
    Err.negativeFiat ≠ Err.shortNotFound ∧
    ((position.margin + (position.entryPrice - P) * position.amount) /
        (P * position.amount) < maintenanceMarginRate →
      checkLiquidation st symbol = (.error .negativeFiat, st)) := by
  have hpos' : lookupA symbol st.shortPositions = some position := hpos
  have hcr : st.wallet.fiat + (position.margin +
      (position.entryPrice - P) * position.amount -
      P * position.amount * st.feeRates.shortClose) < 0 := by linarith
  have hclose : closeShort st symbol = (.error .negativeFiat, st) := by
    simp only [closeShort, hpos', hP, Wallet.addFiatBalance_err _ hcr]
  refine ⟨hclose, fun h => Err.noConfusion h, fun hra => ?_⟩
  simp only [checkLiquidation, hpos', hP, if_pos hra, hclose]

/-- Witness for C9 at `stC2`: margin 10, entry 100, quantity 1, price 200,
free fiat 89.9; the settlement amount is −90.2, so closeShort and the
triggered liquidation both fail with the negative-fiat error and leave
the state unchanged. -/
theorem c9_closeShort_settlement_failure_witness :
    closeShort stC2 .BTC_USDT = (.error .negativeFiat, stC2) ∧
    checkLiquidation stC2 .BTC_USDT = (.error .negativeFiat, stC2) := by
  have h := c9_closeShort_settlement_failure stC2 .BTC_USDT
    ⟨.BTC_USDT, 1, 100, 10, 10, 0⟩ 200
    (by norm_num [stC2_eq, getShortPosition, lookupA])
    (by norm_num [stC2_eq, getPriceE, getPriceP, lookupA])
    (by norm_num [stC2_eq])
    (by norm_num [stC2_eq])
  exact ⟨h.1, h.2.2 (by norm_num [maintenanceMarginRate])⟩

end Exchange

/-! ### More association-list and order-list lemmas -/

theorem lookupA_mem {β : Type} {k : Symbol} {v : β} {l : List (Symbol × β)} :
    lookupA k l = some v → (k, v) ∈ l := by
  induction l with
  | nil =>
    intro h
    simp [lookupA] at h
  | cons hd tl ih =>
    obtain ⟨k', v'⟩ := hd
    intro h
    by_cases hk : k' = k
    · simp only [lookupA, hk, if_true, eq_self_iff_true, Option.some.injEq] at h
      subst h
      subst hk
      exact List.mem_cons_self _ _
    · simp only [lookupA, if_neg hk] at h
      exact List.mem_cons_of_mem _ (ih h)

theorem Wallet.getBalance_nonneg {w : Wallet} (hw : WalletInv w) (s : Symbol) :
    0 ≤ w.getBalance s := by
  unfold Wallet.getBalance
  cases hl : lookupA s w.balances with
  | none => simp
  | some v =>
    simpa using hw.2 (s, v) (lookupA_mem hl)

namespace Exchange

theorem findOrder_append {l : List PendingOrder} {o : PendingOrder} {i : Nat}
    (h : ∀ o' ∈ l, o'.id ≠ i) (ho : o.id = i) :
    findOrder i (l ++ [o]) = some o := by
  induction l with
  | nil => simp [findOrder, ho]
  | cons hd tl ih =>
    have hhd : ¬ hd.id = i := h hd (List.mem_cons_self _ _)
    simp only [List.cons_append, findOrder, if_neg hhd]
    exact ih (fun o' ho' => h o' (List.mem_cons_of_mem _ ho'))

theorem removeOrder_append {l : List PendingOrder} {o : PendingOrder} {i : Nat}
    (h : ∀ o' ∈ l, o'.id ≠ i) (ho : o.id = i) :
    removeOrder i (l ++ [o]) = l := by
  induction l with
  | nil => simp [removeOrder, ho]
  | cons hd tl ih =>
    have hhd : ¬ hd.id = i := h hd (List.mem_cons_self _ _)
    simp only [List.cons_append, removeOrder, if_neg hhd]
    exact congrArg (hd :: ·) (ih (fun o' ho' => h o' (List.mem_cons_of_mem _ ho')))

end Exchange

namespace Exchange

/-! ### C3: order freeze / cancel-refund round trip -/

def stC3a : Exchange := setPrice (initSt 1000 {}) .BTC_USDT 10

def stC3b : Exchange := (placeBuyOrder stC3a .BTC_USDT 10 10 0).2

def stC3c : Exchange := (setFeeRates stC3b { limitBuy := some (1/100) }).2

def stC3 : Exchange := (cancelOrder stC3c 1).2

/-- C3 counterexample: no frozen total is recorded on the order — the
cancel refund is recomputed from price × amount at the cancel-time
limit-buy rate. Place a buy freezing 100.2 (rate 0.002), raise the
limit-buy rate to 0.01, cancel: the refund is 101 and free fiat ends at
1000.8 ≠ 1000, although the order never filled. -/
theorem c3_cancel_refund_counterexample :
    stC3a.wallet.fiat = 1000 ∧
    (placeBuyOrder stC3a .BTC_USDT 10 10 0).1 = .ok 1 ∧
    stC3b.wallet.fiat = 4499/5 ∧
    (cancelOrder stC3c 1).1 = .ok () ∧
    stC3.pendingOrders = [] ∧
    stC3.wallet.fiat = 5004/5 ∧
    (5004/5 : ℚ) ≠ 1000 := by
  refine ⟨?_, ?_, ?_, ?_, ?_, ?_, by norm_num⟩ <;>
    norm_num [stC3, stC3c, stC3b, stC3a, placeBuyOrder, cancelOrder,
      setFeeRates, setPrice, initSt, getPriceE, getPriceP, lookupA, setA,
      findOrder, removeOrder, FeeRatesPatch.hasNegative, applyPatch,
      defaultFeeRates, Wallet.subtractFiatBalance, Wallet.setFiatBalance,
      Wallet.addFiatBalance, Wallet.getBalance]

/-- C3 (amended): placing a limit order freezes the resources immediately
(buy: notional + limit-buy fee from free fiat; sell: the instrument
quantity); the order records only price and amount and the buy refund is
recomputed from them at the cancel-time limit-buy rate, so placing then
cancelling with no fill restores exactly the pre-placement free balances
regardless of price changes in between — provided the limit-buy rate is
unchanged. -/
theorem c3_amended_place_cancel_roundtrip (st : Exchange) (symbol : Symbol)
    (p a : ℚ) (now : Nat) (newPrices : List (Symbol × ℚ))
    (hInv : WalletInv st.wallet)
    (hp : 0 < p) (ha : 0 < a)
    (hid : ∀ o ∈ st.pendingOrders, o.id ≠ st.orderIdCounter + 1)
    (hfiat : ¬ st.wallet.fiat < p * a + p * a * st.feeRates.limitBuy)
    (hbal : ¬ st.wallet.getBalance symbol < a) :
    (placeBuyOrder st symbol p a now =
      (.ok (st.orderIdCounter + 1),
        { st with
            wallet := { st.wallet with
              fiat := st.wallet.fiat - (p * a + p * a * st.feeRates.limitBuy) }
            orderIdCounter := st.orderIdCounter + 1
            pendingOrders := st.pendingOrders ++
              [⟨st.orderIdCounter + 1, symbol, true, p, a, now⟩] }) ∧
      cancelOrder { (placeBuyOrder st symbol p a now).2 with prices := newPrices }
          (st.orderIdCounter + 1) =
        (.ok (), { st with
            prices := newPrices
            orderIdCounter := st.orderIdCounter + 1 })) ∧
    (placeSellOrder st symbol p a now =
      (.ok (st.orderIdCounter + 1),
        { st with
            wallet := { st.wallet with
              balances := setA symbol (st.wallet.getBalance symbol - a)
                st.wallet.balances }
            orderIdCounter := st.orderIdCounter + 1
            pendingOrders := st.pendingOrders ++
              [⟨st.orderIdCounter + 1, symbol, false, p, a, now⟩] }) ∧
      cancelOrder { (placeSellOrder st symbol p a now).2 with prices := newPrices }
          (st.orderIdCounter + 1) =
        (.ok (), { st with
            prices := newPrices
            orderIdCounter := st.orderIdCounter + 1 })) := by
  have h1 : ¬ (a ≤ 0 ∨ p ≤ 0) := by
    push_neg
    exact ⟨ha, hp⟩
  have hplaceB : placeBuyOrder st symbol p a now =
      (.ok (st.orderIdCounter + 1),
        { st with
            wallet := { st.wallet with
              fiat := st.wallet.fiat - (p * a + p * a * st.feeRates.limitBuy) }
            orderIdCounter := st.orderIdCounter + 1
            pendingOrders := st.pendingOrders ++
              [⟨st.orderIdCounter + 1, symbol, true, p, a, now⟩] }) := by
    simp only [placeBuyOrder, if_neg h1, if_neg hfiat,
      Wallet.subtractFiatBalance_ok _ hfiat]
  have hplaceS : placeSellOrder st symbol p a now =
      (.ok (st.orderIdCounter + 1),
        { st with
            wallet := { st.wallet with
              balances := setA symbol (st.wallet.getBalance symbol - a)
                st.wallet.balances }
            orderIdCounter := st.orderIdCounter + 1
            pendingOrders := st.pendingOrders ++
              [⟨st.orderIdCounter + 1, symbol, false, p, a, now⟩] }) := by
    simp only [placeSellOrder, if_neg h1, if_neg hbal,
      Wallet.subtractBalance_ok _ _ hbal]
  have hfind : ∀ b : Bool,
      findOrder (st.orderIdCounter + 1) (st.pendingOrders ++
        [⟨st.orderIdCounter + 1, symbol, b, p, a, now⟩]) =
      some ⟨st.orderIdCounter + 1, symbol, b, p, a, now⟩ :=
    fun b => findOrder_append hid rfl
  have hrem : ∀ b : Bool,
      removeOrder (st.orderIdCounter + 1) (st.pendingOrders ++
        [⟨st.orderIdCounter + 1, symbol, b, p, a, now⟩]) =
      st.pendingOrders :=
    fun b => removeOrder_append hid rfl
  refine ⟨⟨hplaceB, ?_⟩, ⟨hplaceS, ?_⟩⟩
  · rw [hplaceB]
    have hadd : ¬ (st.wallet.fiat - (p * a + p * a * st.feeRates.limitBuy)) +
        (p * a + p * a * st.feeRates.limitBuy) < 0 := by
      have hc : st.wallet.fiat - (p * a + p * a * st.feeRates.limitBuy) +
          (p * a + p * a * st.feeRates.limitBuy) = st.wallet.fiat := by ring
      rw [hc]
      exact not_lt.mpr hInv.1
    have haddw := Wallet.addFiatBalance_ok
      ⟨st.wallet.fiat - (p * a + p * a * st.feeRates.limitBuy),
        st.wallet.balances⟩ hadd
    simp only [cancelOrder, hfind true, hrem true, haddw]
    have hc : st.wallet.fiat - (p * a + p * a * st.feeRates.limitBuy) +
        (p * a + p * a * st.feeRates.limitBuy) = st.wallet.fiat := by ring
    rw [hc]
    rfl
  · rw [hplaceS]
    have hb0 : 0 ≤ st.wallet.getBalance symbol :=
      Wallet.getBalance_nonneg hInv symbol
    have hgb : Wallet.getBalance
        ⟨st.wallet.fiat, setA symbol (st.wallet.getBalance symbol - a)
          st.wallet.balances⟩ symbol = st.wallet.getBalance symbol - a := by
      have := Wallet.getBalance_setA st.wallet symbol symbol
        (st.wallet.getBalance symbol - a)
      rw [if_pos rfl] at this
      exact this
    have hadd : ¬ (st.wallet.getBalance symbol - a) + a < 0 := by
      intro hcon
      have hlt : st.wallet.getBalance symbol < 0 := by linarith
      exact absurd hlt (not_lt.mpr hb0)
    have haddw := Wallet.setBalance_ok
      ⟨st.wallet.fiat, setA symbol (st.wallet.getBalance symbol - a)
        st.wallet.balances⟩ symbol hadd
    have hlook : lookupA symbol st.wallet.balances =
        some (st.wallet.getBalance symbol) := by
      cases hl : lookupA symbol st.wallet.balances with
      | none =>
        exfalso
        apply hbal
        unfold Wallet.getBalance
        rw [hl]
        simpa using ha
      | some v =>
        unfold Wallet.getBalance
        rw [hl]
        rfl
    simp only [cancelOrder, hfind false, hrem false, Bool.false_eq_true,
      if_false, Wallet.addBalance, hgb, haddw, setA_setA]
    have hc : st.wallet.getBalance symbol - a + a =
        st.wallet.getBalance symbol := by ring
    rw [hc, setA_lookup_self hlook]

/-- A concrete state for exercising the amended C3: 1000 fiat, BTC priced
at 10, then a spot buy of 20 BTC (fiat 799.8, BTC balance 20). -/
def stW3 : Exchange :=
  (spotBuy (setPrice (initSt 1000 {}) .BTC_USDT 10) .BTC_USDT 20).2

/-- Explicit value of `stW3`. -/
theorem stW3_eq :
    stW3 = { wallet := ⟨3999/5, [(Symbol.BTC_USDT, 20)]⟩
             feeRates := ⟨1/1000, 1/1000, 1/500, 1/500, 1/1000, 1/1000⟩
             pendingOrders := []
             shortPositions := []
             orderIdCounter := 0
             prices := [(Symbol.BTC_USDT, 10)] } := by
  norm_num [stW3, spotBuy, setPrice, initSt, getPriceE, getPriceP, lookupA,
    setA, Wallet.subtractFiatBalance, Wallet.setFiatBalance, Wallet.addBalance,
    Wallet.setBalance, Wallet.getBalance, defaultFeeRates, applyPatch]

/-- Witness for the amended C3 at `stW3`: place a buy (10 × 5 plus fee)
or a sell (5 BTC), drop the oracle price to 7, cancel — the state returns
to `stW3` except for the price table and the order-id counter. -/
theorem c3_amended_place_cancel_roundtrip_witness :
    cancelOrder { (placeBuyOrder stW3 .BTC_USDT 10 5 7).2 with
        prices := [(.BTC_USDT, 7)] } (stW3.orderIdCounter + 1) =
      (.ok (), { stW3 with
          prices := [(.BTC_USDT, 7)]
          orderIdCounter := stW3.orderIdCounter + 1 }) ∧
    cancelOrder { (placeSellOrder stW3 .BTC_USDT 10 5 7).2 with
        prices := [(.BTC_USDT, 7)] } (stW3.orderIdCounter + 1) =
      (.ok (), { stW3 with
          prices := [(.BTC_USDT, 7)]
          orderIdCounter := stW3.orderIdCounter + 1 }) := by
  have h := c3_amended_place_cancel_roundtrip stW3 .BTC_USDT 10 5 7
    [(.BTC_USDT, 7)]
    (by constructor <;> norm_num [stW3_eq])
    (by norm_num)
    (by norm_num)
    (by norm_num [stW3_eq])
    (by norm_num [stW3_eq, Wallet.getBalance, lookupA])
    (by norm_num [stW3_eq, Wallet.getBalance, lookupA])
  exact ⟨h.1.2, h.2.2⟩

/-! ### C4: merging a second openShort -/

/-- C4: opening qty a at price P1 with no existing position, then qty b
at price P2 on the same symbol, merges into one position with entry price
(a·P1 + b·P2)/(a+b), margin P1·a/lev1 + P2·b/lev2 (the second margin
computed at the second call's leverage argument), and the leverage and
creation timestamp of the first open unchanged. -/
theorem c4_openShort_merge (st : Exchange) (symbol : Symbol)
    (a b P1 P2 lev1 lev2 : ℚ) (t1 t2 : Nat)
    (hnone : lookupA symbol st.shortPositions = none)
    (hP1 : getPriceE st symbol = .ok P1)
    (ha : ¬ a ≤ 0) (hb : ¬ b ≤ 0) (hl1 : ¬ lev1 < 1) (hl2 : ¬ lev2 < 1)
    (hP2 : P2 ≠ 0)
    (hf1 : ¬ st.wallet.fiat < P1 * a / lev1 + P1 * a * st.feeRates.shortOpen)
    (hf2 : ¬ (openShort st symbol a lev1 t1).2.wallet.fiat <
      P2 * b / lev2 + P2 * b * (openShort st symbol a lev1 t1).2.feeRates.shortOpen) :
    (openShort st symbol a lev1 t1).1 = .ok () ∧
    (openShort (setPrice (openShort st symbol a lev1 t1).2 symbol P2)
      symbol b lev2 t2).1 = .ok () ∧
    lookupA symbol (openShort (setPrice (openShort st symbol a lev1 t1).2
        symbol P2) symbol b lev2 t2).2.shortPositions =
      some ⟨symbol, a + b, (a * P1 + b * P2) / (a + b), lev1,
        P1 * a / lev1 + P2 * b / lev2, t1⟩ := by
  have hopen1 : openShort st symbol a lev1 t1 =
      (.ok (), { st with
          wallet := ⟨st.wallet.fiat -
            (P1 * a / lev1 + P1 * a * st.feeRates.shortOpen),
            st.wallet.balances⟩
          shortPositions := setA symbol
            ⟨symbol, a, P1, lev1, P1 * a / lev1, t1⟩ st.shortPositions }) := by
    simp only [openShort, if_neg ha, if_neg hl1, hP1, if_neg hf1,
      Wallet.subtractFiatBalance_ok st.wallet hf1, hnone]
  have hf2a : ¬ st.wallet.fiat -
      (P1 * a / lev1 + P1 * a * st.feeRates.shortOpen) <
      P2 * b / lev2 + P2 * b * st.feeRates.shortOpen := by
    rw [hopen1] at hf2
    exact hf2
  have hP2ok : getPriceE
      { wallet := ⟨st.wallet.fiat -
          (P1 * a / lev1 + P1 * a * st.feeRates.shortOpen),
          st.wallet.balances⟩
        feeRates := st.feeRates
        pendingOrders := st.pendingOrders
        shortPositions := setA symbol
          ⟨symbol, a, P1, lev1, P1 * a / lev1, t1⟩ st.shortPositions
        orderIdCounter := st.orderIdCounter
        prices := setA symbol P2 st.prices } symbol = .ok P2 := by
    simp only [getPriceE, getPriceP, lookupA_setA_self, if_neg hP2]
  have hopen2 : openShort
      { wallet := ⟨st.wallet.fiat -
          (P1 * a / lev1 + P1 * a * st.feeRates.shortOpen),
          st.wallet.balances⟩
        feeRates := st.feeRates
        pendingOrders := st.pendingOrders
        shortPositions := setA symbol
          ⟨symbol, a, P1, lev1, P1 * a / lev1, t1⟩ st.shortPositions
        orderIdCounter := st.orderIdCounter
        prices := setA symbol P2 st.prices } symbol b lev2 t2 =
      (.ok (),
        { wallet := ⟨st.wallet.fiat -
            (P1 * a / lev1 + P1 * a * st.feeRates.shortOpen) -
            (P2 * b / lev2 + P2 * b * st.feeRates.shortOpen),
            st.wallet.balances⟩
          feeRates := st.feeRates
          pendingOrders := st.pendingOrders
          shortPositions := setA symbol
            ⟨symbol, a + b, (P1 * a + P2 * b) / (a + b), lev1,
              P1 * a / lev1 + P2 * b / lev2, t1⟩
            (setA symbol ⟨symbol, a, P1, lev1, P1 * a / lev1, t1⟩
              st.shortPositions)
          orderIdCounter := st.orderIdCounter
          prices := setA symbol P2 st.prices }) := by
    simp only [openShort, if_neg hb, if_neg hl2, hP2ok, if_neg hf2a,
      Wallet.subtractFiatBalance_ok
        ⟨st.wallet.fiat - (P1 * a / lev1 + P1 * a * st.feeRates.shortOpen),
          st.wallet.balances⟩ hf2a,
      lookupA_setA_self]
  have hmerge : (P1 * a + P2 * b : ℚ) = a * P1 + b * P2 := by ring
  refine ⟨by rw [hopen1], ?_, ?_⟩
  · simp only [hopen1, setPrice]
    rw [hopen2]
  · simp only [hopen1, setPrice]
    rw [hopen2]
    simp only [lookupA_setA_self, hmerge]

/-- Base state for the C4 witness: 10000 fiat, BTC priced at 100. -/
def stC4 : Exchange := setPrice (initSt 10000 {}) .BTC_USDT 100

/-- Witness for C4: open 2 BTC at 100 with leverage 4 (margin 50), set
the price to 110, open 3 BTC more with leverage 5 (margin 66): the merged
position is 5 BTC at entry 106, margin 116, leverage 4, timestamp of the
first open. -/
theorem c4_openShort_merge_witness :
    lookupA .BTC_USDT (openShort (setPrice (openShort stC4 .BTC_USDT 2 4 5).2
        .BTC_USDT 110) .BTC_USDT 3 5 9).2.shortPositions =
      some ⟨.BTC_USDT, 2 + 3, (2 * 100 + 3 * 110) / (2 + 3), 4,
        100 * 2 / 4 + 110 * 3 / 5, 5⟩ :=
  (c4_openShort_merge stC4 .BTC_USDT 2 3 100 110 4 5 5 9
    (by norm_num [stC4, setPrice, initSt, setA, lookupA])
    (by norm_num [stC4, setPrice, initSt, setA, lookupA, getPriceE, getPriceP])
    (by norm_num) (by norm_num) (by norm_num) (by norm_num) (by norm_num)
    (by norm_num [stC4, setPrice, initSt, defaultFeeRates, applyPatch])
    (by norm_num [stC4, openShort, setPrice, initSt, setA, lookupA,
      getPriceE, getPriceP, Wallet.subtractFiatBalance, Wallet.setFiatBalance,
      defaultFeeRates, applyPatch])).2.2

/-! ### C7: no partial effect on insufficient-resource failures -/

theorem spotBuy_error_state (st : Exchange) (s : Symbol) (a : ℚ) {e : Err}
    (h : (spotBuy st s a).1 = .error e) :
    (spotBuy st s a).2 = st ∨ e = .negativeBalance := by
  by_cases h1 : a ≤ 0
  · left
    simp [spotBuy, h1]
  · cases hp : getPriceE st s with
    | error e1 =>
      left
      simp [spotBuy, h1, hp]
    | ok price =>
      by_cases h2 : st.wallet.fiat < price * a + price * a * st.feeRates.spotBuy
      · left
        simp [spotBuy, h1, hp, h2]
      · cases hb : Wallet.addBalance
            ⟨st.wallet.fiat - (price * a + price * a * st.feeRates.spotBuy),
              st.wallet.balances⟩ s a with
        | error e2 =>
          right
          have he2 : e2 = .negativeBalance := Wallet.addBalance_error hb
          simp only [spotBuy, if_neg h1, hp, if_neg h2,
            Wallet.subtractFiatBalance_ok st.wallet h2, hb] at h
          rw [← Except.error.inj h]
          exact he2
        | ok w2 =>
          simp only [spotBuy, if_neg h1, hp, if_neg h2,
            Wallet.subtractFiatBalance_ok st.wallet h2, hb] at h
          exact absurd h (by simp)

theorem spotSell_error_state (st : Exchange) (s : Symbol) (a : ℚ) {e : Err}
    (h : (spotSell st s a).1 = .error e) :
    (spotSell st s a).2 = st ∨ e = .negativeFiat := by
  by_cases h1 : a ≤ 0
  · left
    simp [spotSell, h1]
  · by_cases h2 : st.wallet.getBalance s < a
    · left
      simp [spotSell, h1, h2]
    · cases hp : getPriceE st s with
      | error e1 =>
        left
        simp [spotSell, h1, h2, hp]
      | ok price =>
        cases hb : Wallet.addFiatBalance
            ⟨st.wallet.fiat, setA s (st.wallet.getBalance s - a)
              st.wallet.balances⟩ (price * a - price * a * st.feeRates.spotSell) with
        | error e2 =>
          right
          have he2 : e2 = .negativeFiat := Wallet.addFiatBalance_error hb
          simp only [spotSell, if_neg h1, if_neg h2, hp,
            Wallet.subtractBalance_ok st.wallet s h2, hb] at h
          rw [← Except.error.inj h]
          exact he2
        | ok w2 =>
          simp only [spotSell, if_neg h1, if_neg h2, hp,
            Wallet.subtractBalance_ok st.wallet s h2, hb] at h
          exact absurd h (by simp)

theorem placeBuyOrder_error_state (st : Exchange) (s : Symbol) (p a : ℚ)
    (now : Nat) {e : Err} (h : (placeBuyOrder st s p a now).1 = .error e) :
    (placeBuyOrder st s p a now).2 = st := by
  by_cases h1 : a ≤ 0 ∨ p ≤ 0
  · simp [placeBuyOrder, h1]
  · by_cases h2 : st.wallet.fiat < p * a + p * a * st.feeRates.limitBuy
    · simp [placeBuyOrder, h1, h2]
    · simp only [placeBuyOrder, if_neg h1, if_neg h2,
        Wallet.subtractFiatBalance_ok st.wallet h2] at h
      exact absurd h (by simp)

theorem placeSellOrder_error_state (st : Exchange) (s : Symbol) (p a : ℚ)
    (now : Nat) {e : Err} (h : (placeSellOrder st s p a now).1 = .error e) :
    (placeSellOrder st s p a now).2 = st := by
  by_cases h1 : a ≤ 0 ∨ p ≤ 0
  · simp [placeSellOrder, h1]
  · by_cases h2 : st.wallet.getBalance s < a
    · simp [placeSellOrder, h1, h2]
    · simp only [placeSellOrder, if_neg h1, if_neg h2,
        Wallet.subtractBalance_ok st.wallet s h2] at h
      exact absurd h (by simp)

theorem openShort_error_state (st : Exchange) (s : Symbol) (a lev : ℚ)
    (now : Nat) {e : Err} (h : (openShort st s a lev now).1 = .error e) :
    (openShort st s a lev now).2 = st := by
  by_cases h1 : a ≤ 0
  · simp [openShort, h1]
  · by_cases h1l : lev < 1
    · simp [openShort, h1, h1l]
    · cases hp : getPriceE st s with
      | error e1 =>
        simp [openShort, h1, h1l, hp]
      | ok price =>
        by_cases h2 : st.wallet.fiat <
            price * a / lev + price * a * st.feeRates.shortOpen
        · simp [openShort, h1, h1l, hp, h2]
        · cases hl : lookupA s st.shortPositions with
          | none =>
            simp only [openShort, if_neg h1, if_neg h1l, hp, if_neg h2,
              Wallet.subtractFiatBalance_ok st.wallet h2, hl] at h
            exact absurd h (by simp)
          | some pos =>
            simp only [openShort, if_neg h1, if_neg h1l, hp, if_neg h2,
              Wallet.subtractFiatBalance_ok st.wallet h2, hl] at h
            exact absurd h (by simp)

/-- C7: whenever spotBuy, spotSell, placeBuyOrder, placeSellOrder or
openShort fails with the insufficient-fiat, insufficient-balance or
insufficient-margin error, the state after the call is exactly the state
before it — never a partial effect. -/
theorem c7_no_partial_effect_on_insufficient (st : Exchange) (s : Symbol)
    (p a lev : ℚ) (now : Nat) (e : Err)
    (he : e = .insufficientFiat ∨ e = .insufficientBalance ∨
      e = .insufficientMargin) :
    ((spotBuy st s a).1 = .error e → (spotBuy st s a).2 = st) ∧
    ((spotSell st s a).1 = .error e → (spotSell st s a).2 = st) ∧
    ((placeBuyOrder st s p a now).1 = .error e →
      (placeBuyOrder st s p a now).2 = st) ∧
    ((placeSellOrder st s p a now).1 = .error e →
      (placeSellOrder st s p a now).2 = st) ∧
    ((openShort st s a lev now).1 = .error e →
      (openShort st s a lev now).2 = st) := by
  refine ⟨fun h => ?_, fun h => ?_, fun h => placeBuyOrder_error_state _ _ _ _ _ h,
    fun h => placeSellOrder_error_state _ _ _ _ _ h,
    fun h => openShort_error_state _ _ _ _ _ h⟩
  · rcases spotBuy_error_state st s a h with hst | hbad
    · exact hst
    · subst hbad
      rcases he with h' | h' | h' <;> exact Err.noConfusion h'
  · rcases spotSell_error_state st s a h with hst | hbad
    · exact hst
    · subst hbad
      rcases he with h' | h' | h' <;> exact Err.noConfusion h'

/-- State for the C7 witness: zero fiat, no balances, BTC priced at 10. -/
def stC7 : Exchange := setPrice (initSt 0 {}) .BTC_USDT 10

/-- Explicit value of `stC7`. -/
theorem stC7_eq :
    stC7 = { wallet := ⟨0, []⟩
             feeRates := ⟨1/1000, 1/1000, 1/500, 1/500, 1/1000, 1/1000⟩
             pendingOrders := []
             shortPositions := []
             orderIdCounter := 0
             prices := [(Symbol.BTC_USDT, 10)] } := by
  norm_num [stC7, setPrice, initSt, setA, defaultFeeRates, applyPatch]

/-- Witness for C7: with zero fiat and no balances, all five operations
fail with their insufficient-resource errors and leave the state exactly
as it was. -/
theorem c7_no_partial_effect_on_insufficient_witness :
    (spotBuy stC7 .BTC_USDT 1).2 = stC7 ∧
    (spotSell stC7 .BTC_USDT 1).2 = stC7 ∧
    (placeBuyOrder stC7 .BTC_USDT 10 1 0).2 = stC7 ∧
    (placeSellOrder stC7 .BTC_USDT 10 1 0).2 = stC7 ∧
    (openShort stC7 .BTC_USDT 1 1 0).2 = stC7 := by
  have hFiat := c7_no_partial_effect_on_insufficient stC7 .BTC_USDT 10 1 1 0
    .insufficientFiat (.inl rfl)
  have hBal := c7_no_partial_effect_on_insufficient stC7 .BTC_USDT 10 1 1 0
    .insufficientBalance (.inr (.inl rfl))
  have hMargin := c7_no_partial_effect_on_insufficient stC7 .BTC_USDT 10 1 1 0
    .insufficientMargin (.inr (.inr rfl))
  refine ⟨hFiat.1 ?_, hBal.2.1 ?_, hFiat.2.2.1 ?_, hBal.2.2.2.1 ?_,
    hMargin.2.2.2.2 ?_⟩ <;>
    norm_num [stC7_eq, spotBuy, spotSell, placeBuyOrder, placeSellOrder,
      openShort, getPriceE, getPriceP, lookupA, Wallet.getBalance,
      Wallet.subtractFiatBalance, Wallet.subtractBalance, Wallet.setBalance,
      Wallet.setFiatBalance]

/-! ### Valuation lemmas -/

theorem foldl_add_eq {α : Type} (f : α → ℚ) :
    ∀ (l : List α) (acc : ℚ),
      l.foldl (fun t e => t + f e) acc = acc + (l.map f).sum := by
  intro l
  induction l with
  | nil =>
    intro acc
    simp
  | cons hd tl ih =>
    intro acc
    simp only [List.foldl_cons, List.map_cons, List.sum_cons, ih]
    ring

theorem spotValue_eq (pr : List (Symbol × ℚ)) (l : List (Symbol × ℚ)) :
    spotValue pr l = (l.map (spotContrib pr)).sum := by
  simpa using foldl_add_eq (spotContrib pr) l 0

theorem spotContrib_zero (pr : List (Symbol × ℚ)) (s : Symbol) :
    spotContrib pr (s, 0) = 0 := by
  unfold spotContrib
  cases getPriceP pr s with
  | error e => rfl
  | ok p => simp

theorem spotValue_setA (pr : List (Symbol × ℚ)) (s : Symbol) (v : ℚ) :
    ∀ l, spotValue pr (setA s v l) =
      spotValue pr l + spotContrib pr (s, v) -
        spotContrib pr (s, (lookupA s l).getD 0) := by
  intro l
  induction l with
  | nil =>
    simp [spotValue_eq, setA, lookupA, spotContrib_zero]
  | cons hd tl ih =>
    obtain ⟨k', v'⟩ := hd
    by_cases hk : k' = s
    · subst hk
      simp only [setA, lookupA, eq_self_iff_true, if_true, spotValue_eq,
        List.map_cons, List.sum_cons, Option.getD_some]
      ring
    · simp only [setA, if_neg hk, lookupA, if_neg hk, spotValue_eq,
        List.map_cons, List.sum_cons]
      have ih' := ih
      rw [spotValue_eq, spotValue_eq] at ih'
      rw [ih']
      ring

theorem getUnrealizedPnl_congr {st st' : Exchange}
    (hs : st'.shortPositions = st.shortPositions)
    (hp : st'.prices = st.prices) (s : Symbol) :
    getUnrealizedPnl st' s = getUnrealizedPnl st s := by
  simp only [getUnrealizedPnl, getPriceE, hs, hp]

theorem shortValueFold_congr {st st' : Exchange}
    (hs : st'.shortPositions = st.shortPositions)
    (hp : st'.prices = st.prices) :
    ∀ (l : List (Symbol × ShortPosition)) (acc : ℚ),
      shortValueFold st' l acc = shortValueFold st l acc := by
  intro l
  induction l with
  | nil =>
    intro acc
    rfl
  | cons hd tl ih =>
    intro acc
    obtain ⟨s0, pos⟩ := hd
    simp only [shortValueFold, getUnrealizedPnl_congr hs hp]
    cases getUnrealizedPnl st pos.symbol with
    | error e => rfl
    | ok pnl => exact ih _

theorem shortValueFold_set_wallet (st : Exchange) (w : Wallet) :
    ∀ (l : List (Symbol × ShortPosition)) (acc : ℚ),
      shortValueFold { st with wallet := w } l acc = shortValueFold st l acc := by
  intro l
  induction l with
  | nil =>
    intro acc
    rfl
  | cons hd tl ih =>
    intro acc
    obtain ⟨s0, pos⟩ := hd
    have hpnl : getUnrealizedPnl { st with wallet := w } pos.symbol =
        getUnrealizedPnl st pos.symbol := rfl
    simp only [shortValueFold, hpnl]
    cases getUnrealizedPnl st pos.symbol with
    | error e => rfl
    | ok pnl => exact ih _

theorem getTotalAssetValue_eq (st : Exchange) {sv : ℚ}
    (h : shortValueFold st st.shortPositions 0 = .ok sv) :
    getTotalAssetValue st =
      .ok (st.wallet.fiat + spotValue st.prices st.wallet.balances + sv) := by
  simp only [getTotalAssetValue, h]

theorem getTotalAssetValue_ok_inv {st : Exchange} {v : ℚ}
    (h : getTotalAssetValue st = .ok v) :
    ∃ sv, shortValueFold st st.shortPositions 0 = .ok sv ∧
      v = st.wallet.fiat + spotValue st.prices st.wallet.balances + sv := by
  unfold getTotalAssetValue at h
  cases hs : shortValueFold st st.shortPositions 0 with
  | error e =>
    rw [hs] at h
    exact absurd h (by simp)
  | ok sv =>
    rw [hs] at h
    exact ⟨sv, rfl, (Except.ok.inj h).symm⟩

/-! ### C5: conservation under spot trading -/

/-- A spot operation of the C5 conservation claim. -/
inductive SpotOp where
  | buy (s : Symbol) (a : ℚ)
  | sell (s : Symbol) (a : ℚ)

/-- Run one spot operation. -/
def runSpotOp (st : Exchange) : SpotOp → Except Err Unit × Exchange
  | .buy s a => spotBuy st s a
  | .sell s a => spotSell st s a

/-- Run a sequence of spot operations, stopping at the first failure. -/
def runSpotOps : Exchange → List SpotOp → Except Err Unit × Exchange
  | st, [] => (.ok (), st)
  | st, op :: rest =>
    match runSpotOp st op with
    | (.error e, st1) => (.error e, st1)
    | (.ok _, st1) => runSpotOps st1 rest

/-- The fee the code charges for a spot operation, read off the current
prices and fee rates. -/
def spotOpFee (st : Exchange) : SpotOp → ℚ
  | .buy s a =>
    match getPriceE st s with
    | .ok p => p * a * st.feeRates.spotBuy
    | .error _ => 0
  | .sell s a =>
    match getPriceE st s with
    | .ok p => p * a * st.feeRates.spotSell
    | .error _ => 0

/-- Total fees of a spot-operation sequence at fixed prices and rates. -/
def totalSpotFees (st : Exchange) (ops : List SpotOp) : ℚ :=
  (ops.map (spotOpFee st)).sum

theorem spotOpFee_congr {st st' : Exchange} (hp : st'.prices = st.prices)
    (hf : st'.feeRates = st.feeRates) (op : SpotOp) :
    spotOpFee st' op = spotOpFee st op := by
  cases op <;> simp only [spotOpFee, getPriceE, hp, hf]

theorem totalSpotFees_congr {st st' : Exchange} (hp : st'.prices = st.prices)
    (hf : st'.feeRates = st.feeRates) (ops : List SpotOp) :
    totalSpotFees st' ops = totalSpotFees st ops := by
  unfold totalSpotFees
  induction ops with
  | nil => rfl
  | cons op rest ih =>
    simp only [List.map_cons, List.sum_cons, ih, spotOpFee_congr hp hf]

theorem spotBuy_ok_inv {st st' : Exchange} {s : Symbol} {a : ℚ}
    (h : spotBuy st s a = (.ok (), st')) :
    ∃ p, getPriceE st s = .ok p ∧
      st' = { st with
        wallet := ⟨st.wallet.fiat - (p * a + p * a * st.feeRates.spotBuy),
          setA s (st.wallet.getBalance s + a) st.wallet.balances⟩ } := by
  by_cases h1 : a ≤ 0
  · simp [spotBuy, h1] at h
  · cases hp : getPriceE st s with
    | error e1 =>
      simp [spotBuy, h1, hp] at h
    | ok price =>
      by_cases h2 : st.wallet.fiat < price * a + price * a * st.feeRates.spotBuy
      · simp [spotBuy, h1, hp, h2] at h
      · by_cases h3 : st.wallet.getBalance s + a < 0
        · exfalso
          have h3a : (lookupA s st.wallet.balances).getD 0 + a < 0 := h3
          simp only [spotBuy, if_neg h1, hp, if_neg h2,
            Wallet.subtractFiatBalance_ok st.wallet h2, Wallet.addBalance,
            Wallet.setBalance, Wallet.getBalance, if_pos h3a] at h
          exact Except.noConfusion (congrArg Prod.fst h)
        · refine ⟨price, rfl, ?_⟩
          have haddw := Wallet.addBalance_ok
            ⟨st.wallet.fiat - (price * a + price * a * st.feeRates.spotBuy),
              st.wallet.balances⟩ s (a := a) ?hna
          case hna =>
            intro hc
            exact h3 hc
          simp only [spotBuy, if_neg h1, hp, if_neg h2,
            Wallet.subtractFiatBalance_ok st.wallet h2, haddw,
            Prod.mk.injEq] at h
          exact h.2.symm

theorem spotSell_ok_inv {st st' : Exchange} {s : Symbol} {a : ℚ}
    (h : spotSell st s a = (.ok (), st')) :
    ∃ p, getPriceE st s = .ok p ∧
      st' = { st with
        wallet := ⟨st.wallet.fiat + (p * a - p * a * st.feeRates.spotSell),
          setA s (st.wallet.getBalance s - a) st.wallet.balances⟩ } := by
  by_cases h1 : a ≤ 0
  · simp [spotSell, h1] at h
  · by_cases h2 : st.wallet.getBalance s < a
    · simp [spotSell, h1, h2] at h
    · cases hp : getPriceE st s with
      | error e1 =>
        simp [spotSell, h1, h2, hp] at h
      | ok price =>
        by_cases h3 : st.wallet.fiat +
            (price * a - price * a * st.feeRates.spotSell) < 0
        · have herr := Wallet.addFiatBalance_err
            ⟨st.wallet.fiat, setA s (st.wallet.getBalance s - a)
              st.wallet.balances⟩ h3
          simp only [spotSell, if_neg h1, if_neg h2, hp,
            Wallet.subtractBalance_ok st.wallet s h2, herr,
            Prod.mk.injEq] at h
          exact absurd h.1 (by simp)
        · refine ⟨price, rfl, ?_⟩
          have haddw := Wallet.addFiatBalance_ok
            ⟨st.wallet.fiat, setA s (st.wallet.getBalance s - a)
              st.wallet.balances⟩ h3
          simp only [spotSell, if_neg h1, if_neg h2, hp,
            Wallet.subtractBalance_ok st.wallet s h2, haddw,
            Prod.mk.injEq] at h
          exact h.2.symm

theorem spotBuy_ok_value {st st' : Exchange} {s : Symbol} {a v : ℚ}
    (h : spotBuy st s a = (.ok (), st'))
    (hv : getTotalAssetValue st = .ok v) :
    getTotalAssetValue st' = .ok (v - spotOpFee st (.buy s a)) ∧
    st'.prices = st.prices ∧ st'.feeRates = st.feeRates := by
  obtain ⟨p, hp, rfl⟩ := spotBuy_ok_inv h
  obtain ⟨sv, hsv, hveq⟩ := getTotalAssetValue_ok_inv hv
  have hsv' : shortValueFold
      { st with
        wallet := ⟨st.wallet.fiat - (p * a + p * a * st.feeRates.spotBuy),
          setA s (st.wallet.getBalance s + a) st.wallet.balances⟩ }
      st.shortPositions 0 = .ok sv := by
    rw [shortValueFold_set_wallet st]
    exact hsv
  rw [getTotalAssetValue_eq _ hsv']
  refine ⟨?_, rfl, rfl⟩
  have hset := spotValue_setA st.prices s (st.wallet.getBalance s + a)
    st.wallet.balances
  have hp' : getPriceP st.prices s = .ok p := hp
  have hcb : spotContrib st.prices (s, st.wallet.getBalance s + a) =
      p * (st.wallet.getBalance s + a) := by
    simp only [spotContrib, hp']
  have hcb0 : spotContrib st.prices (s, (lookupA s st.wallet.balances).getD 0) =
      p * st.wallet.getBalance s := by
    simp only [spotContrib, hp']
    rfl
  have hfee : spotOpFee st (.buy s a) = p * a * st.feeRates.spotBuy := by
    simp only [spotOpFee, hp]
  rw [hveq, hfee]
  have hsp : spotValue st.prices
      (setA s (st.wallet.getBalance s + a) st.wallet.balances) =
      spotValue st.prices st.wallet.balances + p * a := by
    rw [hset, hcb, hcb0]
    ring
  have hgoal : st.wallet.fiat - (p * a + p * a * st.feeRates.spotBuy) +
      (spotValue st.prices st.wallet.balances + p * a) + sv =
      st.wallet.fiat + spotValue st.prices st.wallet.balances + sv -
        p * a * st.feeRates.spotBuy := by
    ring
  rw [hsp, hgoal]

theorem spotSell_ok_value {st st' : Exchange} {s : Symbol} {a v : ℚ}
    (h : spotSell st s a = (.ok (), st'))
    (hv : getTotalAssetValue st = .ok v) :
    getTotalAssetValue st' = .ok (v - spotOpFee st (.sell s a)) ∧
    st'.prices = st.prices ∧ st'.feeRates = st.feeRates := by
  obtain ⟨p, hp, rfl⟩ := spotSell_ok_inv h
  obtain ⟨sv, hsv, hveq⟩ := getTotalAssetValue_ok_inv hv
  have hsv' : shortValueFold
      { st with
        wallet := ⟨st.wallet.fiat + (p * a - p * a * st.feeRates.spotSell),
          setA s (st.wallet.getBalance s - a) st.wallet.balances⟩ }
      st.shortPositions 0 = .ok sv := by
    rw [shortValueFold_set_wallet st]
    exact hsv
  rw [getTotalAssetValue_eq _ hsv']
  refine ⟨?_, rfl, rfl⟩
  have hset := spotValue_setA st.prices s (st.wallet.getBalance s - a)
    st.wallet.balances
  have hp' : getPriceP st.prices s = .ok p := hp
  have hcb : spotContrib st.prices (s, st.wallet.getBalance s - a) =
      p * (st.wallet.getBalance s - a) := by
    simp only [spotContrib, hp']
  have hcb0 : spotContrib st.prices (s, (lookupA s st.wallet.balances).getD 0) =
      p * st.wallet.getBalance s := by
    simp only [spotContrib, hp']
    rfl
  have hfee : spotOpFee st (.sell s a) = p * a * st.feeRates.spotSell := by
    simp only [spotOpFee, hp]
  rw [hveq, hfee]
  have hsp : spotValue st.prices
      (setA s (st.wallet.getBalance s - a) st.wallet.balances) =
      spotValue st.prices st.wallet.balances - p * a := by
    rw [hset, hcb, hcb0]
    ring
  have hgoal : st.wallet.fiat + (p * a - p * a * st.feeRates.spotSell) +
      (spotValue st.prices st.wallet.balances - p * a) + sv =
      st.wallet.fiat + spotValue st.prices st.wallet.balances + sv -
        p * a * st.feeRates.spotSell := by
    ring
  rw [hsp, hgoal]

/-- C5: with prices held fixed, any sequence of successful spot buys and
sells changes `getTotalAssetValue()` by exactly minus the sum of the spot
fees paid. -/
theorem c5_spot_conservation :
    ∀ (ops : List SpotOp) (st st' : Exchange) (v : ℚ),
      runSpotOps st ops = (.ok (), st') →
      getTotalAssetValue st = .ok v →
      getTotalAssetValue st' = .ok (v - totalSpotFees st ops) := by
  intro ops
  induction ops with
  | nil =>
    intro st st' v h hv
    have hst : st' = st := by
      simpa [runSpotOps] using h.symm
    subst hst
    simpa [totalSpotFees] using hv
  | cons op rest ih =>
    intro st st' v h hv
    rcases hop : runSpotOp st op with ⟨r, st1⟩
    cases r with
    | error e =>
      simp only [runSpotOps, hop] at h
      exact absurd h (by simp)
    | ok u =>
      cases u
      simp only [runSpotOps, hop] at h
      have hval : getTotalAssetValue st1 = .ok (v - spotOpFee st op) ∧
          st1.prices = st.prices ∧ st1.feeRates = st.feeRates := by
        cases op with
        | buy s a => exact spotBuy_ok_value hop hv
        | sell s a => exact spotSell_ok_value hop hv
      have hrest := ih st1 st' (v - spotOpFee st op) h hval.1
      rw [hrest, totalSpotFees_congr hval.2.1 hval.2.2]
      have : v - spotOpFee st op - totalSpotFees st rest =
          v - totalSpotFees st (op :: rest) := by
        simp only [totalSpotFees, List.map_cons, List.sum_cons]
        ring
      rw [this]

/-- Final state of the C5 witness run. -/
def stC5fin : Exchange :=
  { wallet := ⟨9999/10, [(Symbol.BTC_USDT, 0)]⟩
    feeRates := ⟨1/1000, 1/1000, 1/500, 1/500, 1/1000, 1/1000⟩
    pendingOrders := []
    shortPositions := []
    orderIdCounter := 0
    prices := [(Symbol.BTC_USDT, 10)] }

/-- Witness for C5: from 1000 fiat with BTC at 10, buy 5 then sell 5;
the run succeeds and the total asset value drops from 1000 by exactly
the two fees. -/
theorem c5_spot_conservation_witness :
    getTotalAssetValue stC5fin =
      .ok (1000 - totalSpotFees stC3a
        [SpotOp.buy .BTC_USDT 5, SpotOp.sell .BTC_USDT 5]) :=
  c5_spot_conservation [SpotOp.buy .BTC_USDT 5, SpotOp.sell .BTC_USDT 5]
    stC3a stC5fin 1000
    (by norm_num [stC3a, stC5fin, runSpotOps, runSpotOp, spotBuy, spotSell,
      setPrice, initSt, getPriceE, getPriceP, lookupA, setA,
      Wallet.subtractFiatBalance, Wallet.setFiatBalance, Wallet.addBalance,
      Wallet.subtractBalance, Wallet.setBalance, Wallet.addFiatBalance,
      Wallet.getBalance, defaultFeeRates, applyPatch])
    (by norm_num [stC3a, getTotalAssetValue, shortValueFold, spotValue,
      setPrice, initSt, defaultFeeRates, applyPatch])

/-! ### C6: order matching in onPriceUpdate -/

/-- Fill condition of a pending order under an `onPriceUpdate(symbol,
newPrice)` call: the order's symbol matches and its limit crosses. -/
def fillCond (symbol : Symbol) (newPrice : ℚ) (o : PendingOrder) : Bool :=
  if o.symbol = symbol then shouldExecute o newPrice else false

/-- Total instrument amount credited by the buy orders that fill. -/
def fillBuyAmount (symbol : Symbol) (newPrice : ℚ)
    (orders : List PendingOrder) : ℚ :=
  ((orders.filter (fun o => fillCond symbol newPrice o && o.isBuy)).map
    (fun o => o.amount)).sum

/-- Total fiat credited by the sell orders that fill: limit-price revenue
net of the limit-sell fee, per order. -/
def fillSellProceeds (fr : FeeRates) (symbol : Symbol) (newPrice : ℚ)
    (orders : List PendingOrder) : ℚ :=
  ((orders.filter (fun o => fillCond symbol newPrice o && !o.isBuy)).map
    (fun o => o.price * o.amount - o.price * o.amount * fr.limitSell)).sum

theorem processOrders_spec (fr : FeeRates) (symbol : Symbol) (newPrice : ℚ)
    (hsell : fr.limitSell ≤ 1) :
    ∀ (orders : List PendingOrder) (w : Wallet),
      WalletInv w →
      (∀ o ∈ orders, 0 < o.amount ∧ 0 < o.price) →
      ∃ w',
        processOrders fr symbol newPrice orders w =
          (.ok (), w', orders.filter (fun o => !(fillCond symbol newPrice o))) ∧
        w'.fiat = w.fiat + fillSellProceeds fr symbol newPrice orders ∧
        (∀ q, w'.getBalance q = w.getBalance q +
          (if q = symbol then fillBuyAmount symbol newPrice orders else 0)) ∧
        WalletInv w' := by
  intro orders
  induction orders with
  | nil =>
    intro w hw _
    exact ⟨w, rfl, by simp [fillSellProceeds],
      fun q => by simp [fillBuyAmount], hw⟩
  | cons o rest ih =>
    intro w hw ho
    have hoo := ho o (List.mem_cons_self _ _)
    have horest : ∀ o' ∈ rest, 0 < o'.amount ∧ 0 < o'.price :=
      fun o' h' => ho o' (List.mem_cons_of_mem _ h')
    by_cases hs : o.symbol = symbol
    · cases hexec : shouldExecute o newPrice with
      | false =>
        obtain ⟨w', hrec, hfi, hbal, hw'⟩ := ih w hw horest
        have hfc : fillCond symbol newPrice o = false := by
          simp [fillCond, hs, hexec]
        refine ⟨w', ?_, ?_, ?_, hw'⟩
        · simp [processOrders, hs, hexec, hrec, List.filter_cons, hfc]
        · simp [fillSellProceeds, List.filter_cons, hfc] at hfi ⊢
          exact hfi
        · intro q
          simpa [fillBuyAmount, List.filter_cons, hfc] using hbal q
      | true =>
        have hfc : fillCond symbol newPrice o = true := by
          simp [fillCond, hs, hexec]
        cases hbuy : o.isBuy with
        | true =>
          have hpos : ¬ w.getBalance symbol + o.amount < 0 := by
            have h0 := Wallet.getBalance_nonneg hw symbol
            intro hc
            linarith [hoo.1]
          have haddw := Wallet.addBalance_ok w symbol hpos
          have hw1 : WalletInv
              ⟨w.fiat, setA symbol (w.getBalance symbol + o.amount)
                w.balances⟩ :=
            Wallet.inv_addBalance hw haddw
          obtain ⟨w', hrec, hfi, hbal, hw'⟩ := ih _ hw1 horest
          refine ⟨w', ?_, ?_, ?_, hw'⟩
          · simp [processOrders, hs, hexec, hbuy, haddw, hrec,
              List.filter_cons, hfc]
          · simp only [hfi]
            simp [fillSellProceeds, List.filter_cons, hfc, hbuy]
          · intro q
            rw [hbal q]
            have hgb := Wallet.getBalance_setA w symbol q
              (w.getBalance symbol + o.amount)
            rw [hgb]
            by_cases hq : q = symbol
            · rw [hq]
              simp only [eq_self_iff_true, if_true]
              have hfba : fillBuyAmount symbol newPrice (o :: rest) =
                  o.amount + fillBuyAmount symbol newPrice rest := by
                simp [fillBuyAmount, List.filter_cons, hfc, hbuy]
              rw [hfba]
              ring
            · have hsq : ¬ symbol = q := fun he => hq he.symm
              rw [if_neg hsq, if_neg hq, if_neg hq]
        | false =>
          have hcred : 0 ≤ o.price * o.amount - o.price * o.amount * fr.limitSell := by
            have hpa : 0 < o.price * o.amount := mul_pos hoo.2 hoo.1
            nlinarith
          have hpos : ¬ w.fiat +
              (o.price * o.amount - o.price * o.amount * fr.limitSell) < 0 := by
            intro hc
            linarith [hw.1]
          have haddw := Wallet.addFiatBalance_ok w hpos
          have hw1 : WalletInv
              ⟨w.fiat + (o.price * o.amount - o.price * o.amount * fr.limitSell),
                w.balances⟩ :=
            Wallet.inv_addFiatBalance hw haddw
          obtain ⟨w', hrec, hfi, hbal, hw'⟩ := ih _ hw1 horest
          refine ⟨w', ?_, ?_, ?_, hw'⟩
          · simp [processOrders, hs, hexec, hbuy, haddw, hrec,
              List.filter_cons, hfc]
          · rw [hfi]
            have : fillSellProceeds fr symbol newPrice (o :: rest) =
                (o.price * o.amount - o.price * o.amount * fr.limitSell) +
                  fillSellProceeds fr symbol newPrice rest := by
              simp [fillSellProceeds, List.filter_cons, hfc, hbuy]
            rw [this]
            ring
          · intro q
            rw [hbal q]
            have : fillBuyAmount symbol newPrice (o :: rest) =
                fillBuyAmount symbol newPrice rest := by
              simp [fillBuyAmount, List.filter_cons, hfc, hbuy]
            rw [this]
            rfl
    · obtain ⟨w', hrec, hfi, hbal, hw'⟩ := ih w hw horest
      have hfc : fillCond symbol newPrice o = false := by
        simp [fillCond, hs]
      refine ⟨w', ?_, ?_, ?_, hw'⟩
      · simp [processOrders, hs, hrec, List.filter_cons, hfc]
      · simp [fillSellProceeds, List.filter_cons, hfc] at hfi ⊢
        exact hfi
      · intro q
        simpa [fillBuyAmount, List.filter_cons, hfc] using hbal q

theorem checkLiquidation_ok_state {st : Exchange} {symbol : Symbol}
    (h : (checkLiquidation st symbol).1 = .ok ()) :
    checkLiquidation st symbol = (.ok (), st) := by
  unfold checkLiquidation at h ⊢
  cases hl : lookupA symbol st.shortPositions with
  | none => rfl
  | some position =>
    cases hp : getPriceE st symbol with
    | error e =>
      simp only [hl, hp] at h
      exact absurd h (by simp)
    | ok currentPrice =>
      simp only [hl, hp] at h ⊢
      by_cases hra : (position.margin +
          (position.entryPrice - currentPrice) * position.amount) /
          (currentPrice * position.amount) < maintenanceMarginRate
      · exfalso
        rw [if_pos hra] at h
        rcases hcl : closeShort st symbol with ⟨r, st1⟩
        rw [hcl] at h
        cases r <;> simp at h
      · rw [if_neg hra]

/-- C6 (amended): provided the liquidation check at the start of the call
returns normally (no short on the symbol is force-closed or fails to
settle), `onPriceUpdate(symbol, newPrice)` fills a pending buy order on
that symbol iff newPrice ≤ its limit and a pending sell iff newPrice ≥
its limit; filled orders are removed, every other order — including all
orders on other symbols — stays, each filled buy credits its instrument
amount with no fiat deduction, and each filled sell credits limit-price
revenue net of the limit-sell fee to fiat. -/
theorem c6_amended_onPriceUpdate (st : Exchange) (symbol : Symbol)
    (newPrice : ℚ)
    (hliq : (checkLiquidation st symbol).1 = .ok ())
    (hInv : WalletInv st.wallet)
    (ho : ∀ o ∈ st.pendingOrders, 0 < o.amount ∧ 0 < o.price)
    (hsell : st.feeRates.limitSell ≤ 1) :
    ∃ w', onPriceUpdate st symbol newPrice =
        (.ok (), { st with
          wallet := w'
          pendingOrders := st.pendingOrders.filter
            (fun o => !(fillCond symbol newPrice o)) }) ∧
      w'.fiat = st.wallet.fiat +
        fillSellProceeds st.feeRates symbol newPrice st.pendingOrders ∧
      (∀ q, w'.getBalance q = st.wallet.getBalance q +
        (if q = symbol then fillBuyAmount symbol newPrice st.pendingOrders
          else 0)) := by
  have hck := checkLiquidation_ok_state hliq
  obtain ⟨w', hrun, hfi, hbal, _⟩ := processOrders_spec st.feeRates symbol
    newPrice hsell st.pendingOrders st.wallet hInv ho
  refine ⟨w', ?_, hfi, hbal⟩
  unfold onPriceUpdate
  simp only [hck, hrun]

/-- A reachable state with a short about to liquidate and a resting buy
order: 10000 fiat, short 1 BTC at 100 (leverage 1, margin 100), a buy
order for 1 BTC at limit 50, oracle price then moved to 200. -/
def stC6 : Exchange :=
  setPrice
    (placeBuyOrder
      (openShort (setPrice (initSt 10000 {}) .BTC_USDT 100) .BTC_USDT 1 1 0).2
      .BTC_USDT 50 1 1).2
    .BTC_USDT 200

/-- Explicit value of `stC6`. -/
theorem stC6_eq :
    stC6 = { wallet := ⟨49249/5, []⟩
             feeRates := ⟨1/1000, 1/1000, 1/500, 1/500, 1/1000, 1/1000⟩
             pendingOrders := [⟨1, Symbol.BTC_USDT, true, 50, 1, 1⟩]
             shortPositions := [(Symbol.BTC_USDT,
               ⟨Symbol.BTC_USDT, 1, 100, 1, 100, 0⟩)]
             orderIdCounter := 1
             prices := [(Symbol.BTC_USDT, 200)] } := by
  norm_num [stC6, placeBuyOrder, openShort, setPrice, initSt, getPriceE,
    getPriceP, lookupA, setA, Wallet.subtractFiatBalance,
    Wallet.setFiatBalance, Wallet.getBalance, defaultFeeRates, applyPatch]

/-- C6 counterexample: at `stC6` the update `onPriceUpdate(BTC, 40)`
satisfies 40 ≤ 50, so the claim says the resting buy order fills — but
the liquidation raised at the start of the call aborts the walk and the
order is still pending afterwards. -/
theorem c6_fill_counterexample :
    stC6.pendingOrders = [⟨1, .BTC_USDT, true, 50, 1, 1⟩] ∧
    (40 : ℚ) ≤ 50 ∧
    (onPriceUpdate stC6 .BTC_USDT 40).1 = .error .liquidation ∧
    (onPriceUpdate stC6 .BTC_USDT 40).2.pendingOrders =
      [⟨1, .BTC_USDT, true, 50, 1, 1⟩] := by
  refine ⟨by rw [stC6_eq], by norm_num, ?_, ?_⟩ <;>
    norm_num [stC6_eq, onPriceUpdate, checkLiquidation, closeShort,
      getUnrealizedPnl, processOrders, shouldExecute, maintenanceMarginRate,
      getPriceE, getPriceP, lookupA, setA, removeA, Wallet.addFiatBalance,
      Wallet.setFiatBalance]

/-- A state with two resting orders on held BTC: `stW3` (fiat 799.8,
20 BTC at price 10) plus a sell of 5 BTC at 15 and a buy of 5 BTC at 5. -/
def stW6 : Exchange :=
  (placeBuyOrder (placeSellOrder stW3 .BTC_USDT 15 5 1).2 .BTC_USDT 5 5 2).2

/-- Explicit value of `stW6`. -/
theorem stW6_eq :
    stW6 = { wallet := ⟨3099/4, [(Symbol.BTC_USDT, 15)]⟩
             feeRates := ⟨1/1000, 1/1000, 1/500, 1/500, 1/1000, 1/1000⟩
             pendingOrders := [⟨1, Symbol.BTC_USDT, false, 15, 5, 1⟩,
               ⟨2, Symbol.BTC_USDT, true, 5, 5, 2⟩]
             shortPositions := []
             orderIdCounter := 2
             prices := [(Symbol.BTC_USDT, 10)] } := by
  norm_num [stW6, stW3_eq, placeBuyOrder, placeSellOrder, getPriceE,
    getPriceP, lookupA, setA, Wallet.subtractFiatBalance,
    Wallet.setFiatBalance, Wallet.subtractBalance, Wallet.setBalance,
    Wallet.getBalance]

/-- Witness for the amended C6 at `stW6` with newPrice 15: the update
crosses only the sell boundary, so exactly the sell order fills and the
buy order stays pending. -/
theorem c6_amended_onPriceUpdate_witness :
    ∃ w', onPriceUpdate stW6 .BTC_USDT 15 =
        (.ok (), { stW6 with
          wallet := w'
          pendingOrders := stW6.pendingOrders.filter
            (fun o => !(fillCond .BTC_USDT 15 o)) }) ∧
      w'.fiat = stW6.wallet.fiat +
        fillSellProceeds stW6.feeRates .BTC_USDT 15 stW6.pendingOrders ∧
      (∀ q, w'.getBalance q = stW6.wallet.getBalance q +
        (if q = .BTC_USDT then fillBuyAmount .BTC_USDT 15 stW6.pendingOrders
          else 0)) :=
  c6_amended_onPriceUpdate stW6 .BTC_USDT 15
    (by norm_num [stW6_eq, checkLiquidation, lookupA])
    (by constructor <;> norm_num [stW6_eq])
    (by rw [stW6_eq]; intro o hmem; fin_cases hmem <;> norm_num)
    (by norm_num [stW6_eq])

/-! ### C10: which price each phase of onPriceUpdate reads -/

theorem processOrders_no_liquidation (fr : FeeRates) (symbol : Symbol)
    (newPrice : ℚ) :
    ∀ (orders : List PendingOrder) (w : Wallet),
      (processOrders fr symbol newPrice orders w).1 ≠ .error .liquidation := by
  intro orders
  induction orders with
  | nil =>
    intro w h
    simp [processOrders] at h
  | cons o rest ih =>
    intro w h
    by_cases hs : o.symbol = symbol
    · cases hexec : shouldExecute o newPrice with
      | false =>
        rcases hrec : processOrders fr symbol newPrice rest w with ⟨r, w1, kept⟩
        simp only [processOrders, if_pos hs, hexec, hrec] at h
        exact ih w (by rw [hrec]; simpa using h)
      | true =>
        cases hbuy : o.isBuy with
        | true =>
          cases hb : w.addBalance symbol o.amount with
          | error e =>
            have he := Wallet.addBalance_error hb
            simp only [processOrders, if_pos hs, hexec, hbuy, hb] at h
            subst he
            exact Err.noConfusion (Except.error.inj h)
          | ok w1 =>
            simp only [processOrders, if_pos hs, hexec, hbuy, hb] at h
            exact ih w1 h
        | false =>
          cases hb : w.addFiatBalance
              (o.price * o.amount - o.price * o.amount * fr.limitSell) with
          | error e =>
            have he := Wallet.addFiatBalance_error hb
            simp only [processOrders, if_pos hs, hexec, hbuy, hb] at h
            subst he
            exact Err.noConfusion (Except.error.inj h)
          | ok w1 =>
            simp only [processOrders, if_pos hs, hexec, hbuy, hb] at h
            exact ih w1 h
    · rcases hrec : processOrders fr symbol newPrice rest w with ⟨r, w1, kept⟩
      simp only [processOrders, if_neg hs, hrec] at h
      exact ih w (by rw [hrec]; simpa using h)

/-- C10: the liquidation phase of `onPriceUpdate(symbol, newPrice)` is
evaluated entirely at the price stored in the oracle, never at the
newPrice argument — a liquidation outcome (signal and state) is the same
for every newPrice, and any throwing liquidation check is returned
verbatim — while the fill phase compares the pending orders against the
newPrice argument only. -/
theorem c10_onPriceUpdate_price_sources (st : Exchange) (symbol : Symbol)
    (p₁ p₂ : ℚ) :
    ((onPriceUpdate st symbol p₁).1 = .error .liquidation →
      onPriceUpdate st symbol p₁ = onPriceUpdate st symbol p₂) ∧
    (∀ e st₁, checkLiquidation st symbol = (.error e, st₁) →
      onPriceUpdate st symbol p₁ = (.error e, st₁)) ∧
    ((checkLiquidation st symbol).1 = .ok () → WalletInv st.wallet →
      (∀ o ∈ st.pendingOrders, 0 < o.amount ∧ 0 < o.price) →
      st.feeRates.limitSell ≤ 1 →
      (onPriceUpdate st symbol p₁).2.pendingOrders =
        st.pendingOrders.filter (fun o => !(fillCond symbol p₁ o))) := by
  refine ⟨?_, ?_, ?_⟩
  · intro h
    rcases hck : checkLiquidation st symbol with ⟨r0, st1⟩
    cases r0 with
    | error e =>
      unfold onPriceUpdate
      simp only [hck]
    | ok u =>
      cases u
      exfalso
      unfold onPriceUpdate at h
      simp only [hck] at h
      rcases hpo : processOrders st1.feeRates symbol p₁
          st1.pendingOrders st1.wallet with ⟨r, w1, kept⟩
      rw [hpo] at h
      exact processOrders_no_liquidation st1.feeRates symbol p₁
        st1.pendingOrders st1.wallet (by rw [hpo]; simpa using h)
  · intro e st₁ hck
    unfold onPriceUpdate
    simp only [hck]
  · intro hok hInv ho hsell
    have hck := checkLiquidation_ok_state hok
    obtain ⟨w', hrun, -, -, -⟩ := processOrders_spec st.feeRates symbol
      p₁ hsell st.pendingOrders st.wallet hInv ho
    unfold onPriceUpdate
    simp only [hck, hrun]

/-- Witness for C10 at `stC6`: the oracle holds 200, so the liquidation
fires no matter which newPrice is passed — updating with 40 and with 100
produce identical results. -/
theorem c10_onPriceUpdate_price_sources_witness :
    onPriceUpdate stC6 .BTC_USDT 40 = onPriceUpdate stC6 .BTC_USDT 100 :=
  (c10_onPriceUpdate_price_sources stC6 .BTC_USDT 40 100).1
    (by norm_num [stC6_eq, onPriceUpdate, checkLiquidation, closeShort,
      getUnrealizedPnl, processOrders, shouldExecute, maintenanceMarginRate,
      getPriceE, getPriceP, lookupA, setA, removeA, Wallet.addFiatBalance,
      Wallet.setFiatBalance])

/-! ### C8: non-negativity of all balances in reachable states -/

theorem mem_removeA {β : Type} {e : Symbol × β} {k : Symbol}
    {l : List (Symbol × β)} : e ∈ removeA k l → e ∈ l := by
  induction l with
  | nil =>
    intro h
    simp [removeA] at h
  | cons hd tl ih =>
    obtain ⟨k', v'⟩ := hd
    intro h
    by_cases hk : k' = k
    · simp only [removeA, hk, if_true, eq_self_iff_true] at h
      exact List.mem_cons_of_mem _ h
    · simp only [removeA, if_neg hk, List.mem_cons] at h
      rcases h with h | h
      · simp [h]
      · exact List.mem_cons_of_mem _ (ih h)

theorem Wallet.inv_clearBalance {w : Wallet} (hw : WalletInv w) (s : Symbol) :
    WalletInv (w.clearBalance s) :=
  ⟨hw.1, fun e he => hw.2 e (mem_removeA he)⟩

theorem Wallet.inv_clearAllBalances {w : Wallet} (hw : WalletInv w) :
    WalletInv w.clearAllBalances :=
  ⟨hw.1, fun e he => by simp [Wallet.clearAllBalances] at he⟩

theorem inv_spotBuy (st : Exchange) (s : Symbol) (a : ℚ)
    (hw : WalletInv st.wallet) : WalletInv (spotBuy st s a).2.wallet := by
  by_cases h1 : a ≤ 0
  · simpa [spotBuy, h1] using hw
  · cases hp : getPriceE st s with
    | error e => simpa [spotBuy, h1, hp] using hw
    | ok price =>
      by_cases h2 : st.wallet.fiat < price * a + price * a * st.feeRates.spotBuy
      · simpa [spotBuy, h1, hp, h2] using hw
      · have hsub := Wallet.subtractFiatBalance_ok st.wallet h2
        have hw1 : WalletInv
            ⟨st.wallet.fiat - (price * a + price * a * st.feeRates.spotBuy),
              st.wallet.balances⟩ :=
          Wallet.inv_subtractFiatBalance hw hsub
        cases hb : Wallet.addBalance
            ⟨st.wallet.fiat - (price * a + price * a * st.feeRates.spotBuy),
              st.wallet.balances⟩ s a with
        | error e => simpa [spotBuy, h1, hp, h2, hsub, hb] using hw1
        | ok w2 =>
          have hw2 := Wallet.inv_addBalance hw1 hb
          simpa [spotBuy, h1, hp, h2, hsub, hb] using hw2

theorem inv_spotSell (st : Exchange) (s : Symbol) (a : ℚ)
    (hw : WalletInv st.wallet) : WalletInv (spotSell st s a).2.wallet := by
  by_cases h1 : a ≤ 0
  · simpa [spotSell, h1] using hw
  · by_cases h2 : st.wallet.getBalance s < a
    · simpa [spotSell, h1, h2] using hw
    · cases hp : getPriceE st s with
      | error e => simpa [spotSell, h1, h2, hp] using hw
      | ok price =>
        have hsub := Wallet.subtractBalance_ok st.wallet s h2
        have hw1 : WalletInv
            ⟨st.wallet.fiat,
              setA s (st.wallet.getBalance s - a) st.wallet.balances⟩ :=
          Wallet.inv_subtractBalance hw hsub
        cases hb : Wallet.addFiatBalance
            ⟨st.wallet.fiat,
              setA s (st.wallet.getBalance s - a) st.wallet.balances⟩
            (price * a - price * a * st.feeRates.spotSell) with
        | error e => simpa [spotSell, h1, h2, hp, hsub, hb] using hw1
        | ok w2 =>
          have hw2 := Wallet.inv_addFiatBalance hw1 hb
          simpa [spotSell, h1, h2, hp, hsub, hb] using hw2

theorem inv_placeBuyOrder (st : Exchange) (s : Symbol) (p a : ℚ) (now : Nat)
    (hw : WalletInv st.wallet) :
    WalletInv (placeBuyOrder st s p a now).2.wallet := by
  by_cases h1 : a ≤ 0 ∨ p ≤ 0
  · simpa [placeBuyOrder, h1] using hw
  · by_cases h2 : st.wallet.fiat < p * a + p * a * st.feeRates.limitBuy
    · simpa [placeBuyOrder, h1, h2] using hw
    · have hsub := Wallet.subtractFiatBalance_ok st.wallet h2
      have hw1 : WalletInv
          ⟨st.wallet.fiat - (p * a + p * a * st.feeRates.limitBuy),
            st.wallet.balances⟩ :=
        Wallet.inv_subtractFiatBalance hw hsub
      simpa [placeBuyOrder, h1, h2, hsub] using hw1

theorem inv_placeSellOrder (st : Exchange) (s : Symbol) (p a : ℚ) (now : Nat)
    (hw : WalletInv st.wallet) :
    WalletInv (placeSellOrder st s p a now).2.wallet := by
  by_cases h1 : a ≤ 0 ∨ p ≤ 0
  · simpa [placeSellOrder, h1] using hw
  · by_cases h2 : st.wallet.getBalance s < a
    · simpa [placeSellOrder, h1, h2] using hw
    · have hsub := Wallet.subtractBalance_ok st.wallet s h2
      have hw1 : WalletInv
          ⟨st.wallet.fiat,
            setA s (st.wallet.getBalance s - a) st.wallet.balances⟩ :=
        Wallet.inv_subtractBalance hw hsub
      simpa [placeSellOrder, h1, h2, hsub] using hw1

theorem inv_cancelOrder (st : Exchange) (oid : Nat)
    (hw : WalletInv st.wallet) : WalletInv (cancelOrder st oid).2.wallet := by
  cases hf : findOrder oid st.pendingOrders with
  | none => simpa [cancelOrder, hf] using hw
  | some order =>
    cases hbuy : order.isBuy with
    | true =>
      cases hb : st.wallet.addFiatBalance (order.price * order.amount +
          order.price * order.amount * st.feeRates.limitBuy) with
      | error e => simpa [cancelOrder, hf, hbuy, hb] using hw
      | ok w =>
        have hw2 := Wallet.inv_addFiatBalance hw hb
        simpa [cancelOrder, hf, hbuy, hb] using hw2
    | false =>
      cases hb : st.wallet.addBalance order.symbol order.amount with
      | error e => simpa [cancelOrder, hf, hbuy, hb] using hw
      | ok w =>
        have hw2 := Wallet.inv_addBalance hw hb
        simpa [cancelOrder, hf, hbuy, hb] using hw2

theorem inv_openShort (st : Exchange) (s : Symbol) (a lev : ℚ) (now : Nat)
    (hw : WalletInv st.wallet) :
    WalletInv (openShort st s a lev now).2.wallet := by
  by_cases h1 : a ≤ 0
  · simpa [openShort, h1] using hw
  · by_cases h1l : lev < 1
    · simpa [openShort, h1, h1l] using hw
    · cases hp : getPriceE st s with
      | error e => simpa [openShort, h1, h1l, hp] using hw
      | ok price =>
        by_cases h2 : st.wallet.fiat <
            price * a / lev + price * a * st.feeRates.shortOpen
        · simpa [openShort, h1, h1l, hp, h2] using hw
        · have hsub := Wallet.subtractFiatBalance_ok st.wallet h2
          have hw1 : WalletInv
              ⟨st.wallet.fiat -
                (price * a / lev + price * a * st.feeRates.shortOpen),
                st.wallet.balances⟩ :=
            Wallet.inv_subtractFiatBalance hw hsub
          cases hl : lookupA s st.shortPositions with
          | none => simpa [openShort, h1, h1l, hp, h2, hsub, hl] using hw1
          | some pos => simpa [openShort, h1, h1l, hp, h2, hsub, hl] using hw1

theorem inv_closeShort (st : Exchange) (s : Symbol)
    (hw : WalletInv st.wallet) : WalletInv (closeShort st s).2.wallet := by
  cases hl : lookupA s st.shortPositions with
  | none => simpa [closeShort, hl] using hw
  | some position =>
    cases hp : getPriceE st s with
    | error e => simpa [closeShort, hl, hp] using hw
    | ok currentPrice =>
      cases hb : st.wallet.addFiatBalance (position.margin +
          (position.entryPrice - currentPrice) * position.amount -
          currentPrice * position.amount * st.feeRates.shortClose) with
      | error e => simpa [closeShort, hl, hp, hb] using hw
      | ok w =>
        have hw2 := Wallet.inv_addFiatBalance hw hb
        simpa [closeShort, hl, hp, hb] using hw2

theorem inv_checkLiquidation (st : Exchange) (s : Symbol)
    (hw : WalletInv st.wallet) :
    WalletInv (checkLiquidation st s).2.wallet := by
  cases hl : lookupA s st.shortPositions with
  | none => simpa [checkLiquidation, hl] using hw
  | some position =>
    cases hp : getPriceE st s with
    | error e => simpa [checkLiquidation, hl, hp] using hw
    | ok currentPrice =>
      by_cases hra : (position.margin +
          (position.entryPrice - currentPrice) * position.amount) /
          (currentPrice * position.amount) < maintenanceMarginRate
      · rcases hcl : closeShort st s with ⟨r, st1⟩
        have hinv1 : WalletInv st1.wallet := by
          have h0 := inv_closeShort st s hw
          rw [hcl] at h0
          exact h0
        cases r <;> simpa [checkLiquidation, hl, hp, hra, hcl] using hinv1
      · simpa [checkLiquidation, hl, hp, hra] using hw

theorem inv_processOrders (fr : FeeRates) (symbol : Symbol) (newPrice : ℚ) :
    ∀ (orders : List PendingOrder) (w : Wallet), WalletInv w →
      WalletInv (processOrders fr symbol newPrice orders w).2.1 := by
  intro orders
  induction orders with
  | nil =>
    intro w hw
    exact hw
  | cons o rest ih =>
    intro w hw
    by_cases hs : o.symbol = symbol
    · cases hexec : shouldExecute o newPrice with
      | false =>
        rcases hrec : processOrders fr symbol newPrice rest w with ⟨r, w1, kept⟩
        have h0 := ih w hw
        rw [hrec] at h0
        simpa [processOrders, hs, hexec, hrec] using h0
      | true =>
        cases hbuy : o.isBuy with
        | true =>
          cases hb : w.addBalance symbol o.amount with
          | error e => simpa [processOrders, hs, hexec, hbuy, hb] using hw
          | ok w1 =>
            have h0 := ih w1 (Wallet.inv_addBalance hw hb)
            simpa [processOrders, hs, hexec, hbuy, hb] using h0
        | false =>
          cases hb : w.addFiatBalance
              (o.price * o.amount - o.price * o.amount * fr.limitSell) with
          | error e => simpa [processOrders, hs, hexec, hbuy, hb] using hw
          | ok w1 =>
            have h0 := ih w1 (Wallet.inv_addFiatBalance hw hb)
            simpa [processOrders, hs, hexec, hbuy, hb] using h0
    · rcases hrec : processOrders fr symbol newPrice rest w with ⟨r, w1, kept⟩
      have h0 := ih w hw
      rw [hrec] at h0
      simpa [processOrders, hs, hrec] using h0

theorem inv_onPriceUpdate (st : Exchange) (s : Symbol) (newPrice : ℚ)
    (hw : WalletInv st.wallet) :
    WalletInv (onPriceUpdate st s newPrice).2.wallet := by
  rcases hck : checkLiquidation st s with ⟨r0, st1⟩
  have hinv1 : WalletInv st1.wallet := by
    have h0 := inv_checkLiquidation st s hw
    rw [hck] at h0
    exact h0
  cases r0 with
  | error e => simpa [onPriceUpdate, hck] using hinv1
  | ok u =>
    rcases hpo : processOrders st1.feeRates s newPrice
        st1.pendingOrders st1.wallet with ⟨r, w1, kept⟩
    have h0 := inv_processOrders st1.feeRates s newPrice
      st1.pendingOrders st1.wallet hinv1
    rw [hpo] at h0
    cases u
    simpa [onPriceUpdate, hck, hpo] using h0

theorem inv_setFeeRates (st : Exchange) (p : FeeRatesPatch)
    (hw : WalletInv st.wallet) : WalletInv (setFeeRates st p).2.wallet := by
  by_cases hn : p.hasNegative
  · simpa [setFeeRates, hn] using hw
  · simpa [setFeeRates, hn] using hw

/-- Apply the result of a public Wallet method to the state: the wallet
is replaced on success and untouched when the method throws. -/
def walletOp (st : Exchange) (r : Except Err Wallet) : Exchange :=
  match r with
  | .ok w => { st with wallet := w }
  | .error _ => st

theorem inv_walletOp {st : Exchange} {r : Except Err Wallet}
    (hw : WalletInv st.wallet) (h : ∀ w, r = .ok w → WalletInv w) :
    WalletInv (walletOp st r).wallet := by
  cases r with
  | error e => exact hw
  | ok w => exact h w rfl

/-- The states reachable through the public Exchange and Wallet
operations from a fresh exchange over a fresh wallet with a non-negative
initial deposit. -/
inductive Reachable : Exchange → Prop where
  | init (fiat : ℚ) (p : FeeRatesPatch) (h : 0 ≤ fiat) :
      Reachable (initSt fiat p)
  | step_setPrice {st} (s : Symbol) (pr : ℚ) :
      Reachable st → Reachable (setPrice st s pr)
  | step_spotBuy {st} (s : Symbol) (a : ℚ) :
      Reachable st → Reachable (spotBuy st s a).2
  | step_spotSell {st} (s : Symbol) (a : ℚ) :
      Reachable st → Reachable (spotSell st s a).2
  | step_placeBuyOrder {st} (s : Symbol) (p a : ℚ) (now : Nat) :
      Reachable st → Reachable (placeBuyOrder st s p a now).2
  | step_placeSellOrder {st} (s : Symbol) (p a : ℚ) (now : Nat) :
      Reachable st → Reachable (placeSellOrder st s p a now).2
  | step_cancelOrder {st} (oid : Nat) :
      Reachable st → Reachable (cancelOrder st oid).2
  | step_openShort {st} (s : Symbol) (a lev : ℚ) (now : Nat) :
      Reachable st → Reachable (openShort st s a lev now).2
  | step_closeShort {st} (s : Symbol) :
      Reachable st → Reachable (closeShort st s).2
  | step_checkLiquidation {st} (s : Symbol) :
      Reachable st → Reachable (checkLiquidation st s).2
  | step_onPriceUpdate {st} (s : Symbol) (p : ℚ) :
      Reachable st → Reachable (onPriceUpdate st s p).2
  | step_setFeeRates {st} (p : FeeRatesPatch) :
      Reachable st → Reachable (setFeeRates st p).2
  | step_wSetBalance {st} (s : Symbol) (a : ℚ) :
      Reachable st → Reachable (walletOp st (st.wallet.setBalance s a))
  | step_wAddBalance {st} (s : Symbol) (a : ℚ) :
      Reachable st → Reachable (walletOp st (st.wallet.addBalance s a))
  | step_wSubtractBalance {st} (s : Symbol) (a : ℚ) :
      Reachable st → Reachable (walletOp st (st.wallet.subtractBalance s a))
  | step_wSetFiatBalance {st} (a : ℚ) :
      Reachable st → Reachable (walletOp st (st.wallet.setFiatBalance a))
  | step_wAddFiatBalance {st} (a : ℚ) :
      Reachable st → Reachable (walletOp st (st.wallet.addFiatBalance a))
  | step_wSubtractFiatBalance {st} (a : ℚ) :
      Reachable st → Reachable (walletOp st (st.wallet.subtractFiatBalance a))
  | step_wClearBalance {st} (s : Symbol) :
      Reachable st → Reachable { st with wallet := st.wallet.clearBalance s }
  | step_wClearAllBalances {st} :
      Reachable st → Reachable { st with wallet := st.wallet.clearAllBalances }

/-- C8: in every state reachable through the public Exchange and Wallet
operations, free fiat and every stored instrument balance are ≥ 0 — the
invariant survives every operation whether it returns normally or
throws mid-way. -/
theorem c8_nonnegative_balances (st : Exchange) (h : Reachable st) :
    WalletInv st.wallet := by
  induction h with
  | init fiat p h0 =>
    exact ⟨h0, fun e he => by simp [initSt] at he⟩
  | step_setPrice s pr hr ih => exact ih
  | step_spotBuy s a hr ih => exact inv_spotBuy _ s a ih
  | step_spotSell s a hr ih => exact inv_spotSell _ s a ih
  | step_placeBuyOrder s p a now hr ih => exact inv_placeBuyOrder _ s p a now ih
  | step_placeSellOrder s p a now hr ih =>
    exact inv_placeSellOrder _ s p a now ih
  | step_cancelOrder oid hr ih => exact inv_cancelOrder _ oid ih
  | step_openShort s a lev now hr ih => exact inv_openShort _ s a lev now ih
  | step_closeShort s hr ih => exact inv_closeShort _ s ih
  | step_checkLiquidation s hr ih => exact inv_checkLiquidation _ s ih
  | step_onPriceUpdate s p hr ih => exact inv_onPriceUpdate _ s p ih
  | step_setFeeRates p hr ih => exact inv_setFeeRates _ p ih
  | step_wSetBalance s a hr ih =>
    exact inv_walletOp ih (fun w hww => Wallet.inv_setBalance ih hww)
  | step_wAddBalance s a hr ih =>
    exact inv_walletOp ih (fun w hww => Wallet.inv_addBalance ih hww)
  | step_wSubtractBalance s a hr ih =>
    exact inv_walletOp ih (fun w hww => Wallet.inv_subtractBalance ih hww)
  | step_wSetFiatBalance a hr ih =>
    exact inv_walletOp ih (fun w hww => Wallet.inv_setFiatBalance ih hww)
  | step_wAddFiatBalance a hr ih =>
    exact inv_walletOp ih (fun w hww => Wallet.inv_addFiatBalance ih hww)
  | step_wSubtractFiatBalance a hr ih =>
    exact inv_walletOp ih (fun w hww => Wallet.inv_subtractFiatBalance ih hww)
  | step_wClearBalance s hr ih => exact Wallet.inv_clearBalance ih s
  | step_wClearAllBalances hr ih => exact Wallet.inv_clearAllBalances ih

/-- Witness for C8: the state `stC2` is reached by init, setPrice,
openShort, setPrice — so its wallet satisfies the invariant. -/
theorem c8_nonnegative_balances_witness : WalletInv stC2.wallet :=
  c8_nonnegative_balances stC2
    (Reachable.step_setPrice .BTC_USDT 200
      (Reachable.step_openShort .BTC_USDT 1 10 0
        (Reachable.step_setPrice .BTC_USDT 100
          (Reachable.init 100 {} (by norm_num)))))

end Exchange

end FF
